import Mathlib

/-
Verification of the incremental JSON knowledge-base merge/reshape pipeline
(kv_rule.py, kv_term.py, kv-rag/utils/kv_termArrange.py, kv-rag/utils/kv_qa.py).

JSON documents are modelled by the inductive type `JVal`.  Python dicts are
modelled as insertion-ordered association lists `List (String × JVal)`;
`aGet`/`aInsert` implement membership lookup and `d[k] = v` assignment with
Python-dict semantics (an assignment to an existing key keeps its position,
a new key is appended).  Python sets are modelled as duplicate-free lists
maintained by `setAdd` (membership order stands in for the unspecified set
iteration order).  Numbers are modelled as integers; `json.loads` is modelled
by the executable recursive-descent `parseJson`.  Fallible Python code
(statements that can raise) is modelled with `Except String`.
-/

inductive JVal where
  | null : JVal
  | bool : Bool → JVal
  | num : Int → JVal
  | str : String → JVal
  | arr : List JVal → JVal
  | obj : List (String × JVal) → JVal

deriving Repr

mutual

def JVal.decEq : (a b : JVal) → Decidable (a = b)
  | .null, .null => .isTrue rfl
  | .bool a, .bool b =>
    match decEq a b with
    | .isTrue h => .isTrue (h ▸ rfl)
    | .isFalse h => .isFalse (fun he => h (by cases he; rfl))
  | .num a, .num b =>
    match decEq a b with
    | .isTrue h => .isTrue (h ▸ rfl)
    | .isFalse h => .isFalse (fun he => h (by cases he; rfl))
  | .str a, .str b =>
    match decEq a b with
    | .isTrue h => .isTrue (h ▸ rfl)
    | .isFalse h => .isFalse (fun he => h (by cases he; rfl))
  | .arr a, .arr b =>
    match decEqJList a b with
    | .isTrue h => .isTrue (h ▸ rfl)
    | .isFalse h => .isFalse (fun he => h (by cases he; rfl))
  | .obj a, .obj b =>
    match decEqJPairs a b with
    | .isTrue h => .isTrue (h ▸ rfl)
    | .isFalse h => .isFalse (fun he => h (by cases he; rfl))
  | .null, .bool _ => .isFalse (fun h => nomatch h)
  | .null, .num _ => .isFalse (fun h => nomatch h)
  | .null, .str _ => .isFalse (fun h => nomatch h)
  | .null, .arr _ => .isFalse (fun h => nomatch h)
  | .null, .obj _ => .isFalse (fun h => nomatch h)
  | .bool _, .null => .isFalse (fun h => nomatch h)
  | .bool _, .num _ => .isFalse (fun h => nomatch h)
  | .bool _, .str _ => .isFalse (fun h => nomatch h)
  | .bool _, .arr _ => .isFalse (fun h => nomatch h)
  | .bool _, .obj _ => .isFalse (fun h => nomatch h)
  | .num _, .null => .isFalse (fun h => nomatch h)
  | .num _, .bool _ => .isFalse (fun h => nomatch h)
  | .num _, .str _ => .isFalse (fun h => nomatch h)
  | .num _, .arr _ => .isFalse (fun h => nomatch h)
  | .num _, .obj _ => .isFalse (fun h => nomatch h)
  | .str _, .null => .isFalse (fun h => nomatch h)
  | .str _, .bool _ => .isFalse (fun h => nomatch h)
  | .str _, .num _ => .isFalse (fun h => nomatch h)
  | .str _, .arr _ => .isFalse (fun h => nomatch h)
  | .str _, .obj _ => .isFalse (fun h => nomatch h)
  | .arr _, .null => .isFalse (fun h => nomatch h)
  | .arr _, .bool _ => .isFalse (fun h => nomatch h)
  | .arr _, .num _ => .isFalse (fun h => nomatch h)
  | .arr _, .str _ => .isFalse (fun h => nomatch h)
  | .arr _, .obj _ => .isFalse (fun h => nomatch h)
  | .obj _, .null => .isFalse (fun h => nomatch h)
  | .obj _, .bool _ => .isFalse (fun h => nomatch h)
  | .obj _, .num _ => .isFalse (fun h => nomatch h)
  | .obj _, .str _ => .isFalse (fun h => nomatch h)
  | .obj _, .arr _ => .isFalse (fun h => nomatch h)

def decEqJList : (a b : List JVal) → Decidable (a = b)
  | [], [] => .isTrue rfl
  | [], _ :: _ => .isFalse (fun h => nomatch h)
  | _ :: _, [] => .isFalse (fun h => nomatch h)
  | x :: xs, y :: ys =>
    match JVal.decEq x y with
    | .isTrue h1 =>
      match decEqJList xs ys with
      | .isTrue h2 => .isTrue (h1 ▸ h2 ▸ rfl)
      | .isFalse h2 => .isFalse (fun he => h2 (by cases he; rfl))
    | .isFalse h1 => .isFalse (fun he => h1 (by cases he; rfl))

def decEqJPairs : (a b : List (String × JVal)) → Decidable (a = b)
  | [], [] => .isTrue rfl
  | [], _ :: _ => .isFalse (fun h => nomatch h)
  | _ :: _, [] => .isFalse (fun h => nomatch h)
  | (k1, v1) :: xs, (k2, v2) :: ys =>
    match decEq k1 k2 with
    | .isTrue hk =>
      match JVal.decEq v1 v2 with
      | .isTrue h1 =>
        match decEqJPairs xs ys with
        | .isTrue h2 => .isTrue (hk ▸ h1 ▸ h2 ▸ rfl)
        | .isFalse h2 => .isFalse (fun he => h2 (by cases he; rfl))
      | .isFalse h1 => .isFalse (fun he => h1 (by cases he; rfl))
    | .isFalse hk => .isFalse (fun he => hk (by cases he; rfl))

end

instance : DecidableEq JVal := JVal.decEq

/-- JDict is the model of a Python dict holding JSON values: an
insertion-ordered association list. -/
def JDict : Type := List (String × JVal)

instance : DecidableEq JDict := fun a b => decEqJPairs a b

/-- Membership lookup in an association list: the value at the first
occurrence of the key (Python dicts have at most one occurrence). -/
def aGet {α : Type} (d : List (String × α)) (k : String) : Option α :=
  match d with
  | [] => none
  | (k0, v) :: rest => if k0 = k then some v else aGet rest k

/-- Python dict assignment `d[k] = v`: replace the value at an existing key
keeping its position, otherwise append the binding at the end. -/
def aInsert {α : Type} (d : List (String × α)) (k : String) (v : α) :
    List (String × α) :=
  match d with
  | [] => [(k, v)]
  | (k0, v0) :: rest =>
    if k0 = k then (k0, v) :: rest else (k0, v0) :: aInsert rest k v

/-- keysNodup d states that d holds at most one binding per key, the
invariant of every association list arising from a Python dict. -/
def keysNodup {α : Type} (d : List (String × α)) : Prop :=
  (d.map Prod.fst).Nodup

instance {α : Type} (d : List (String × α)) : Decidable (keysNodup d) :=
  inferInstanceAs (Decidable ((d.map Prod.fst).Nodup))

/-- Python set.add modelled on duplicate-free lists: append the element
unless it is already present. -/
def setAdd (l : List JVal) (x : JVal) : List JVal :=
  if x ∈ l then l else l ++ [x]

/-- Python truthiness of a JSON value (`if value:`): empty string, zero,
empty containers, None and False are falsy. -/
def jTruthy : JVal → Bool
  | .null => false
  | .bool b => b
  | .num n => n ≠ 0
  | .str s => s ≠ ""
  | .arr l => !l.isEmpty
  | .obj d => !d.isEmpty

/-- isObj v holds exactly when v is a JSON object (a Python mapping). -/
def JVal.isObj : JVal → Bool
  | .obj _ => true
  | _ => false

/-- ASCII lowering of one character, as Python str.lower acts on ASCII. -/
def lowerChar (c : Char) : Char :=
  if 'A' ≤ c ∧ c ≤ 'Z' then Char.ofNat (c.toNat + 32) else c

/-- Model of Python str.lower (restricted to the ASCII range). -/
def pyLower (s : String) : String :=
  String.mk (s.data.map lowerChar)

/-- A single-quote character as a string, used to spell the diagnostic
messages produced by the source's f-strings. -/
def sqt : String := String.singleton (Char.ofNat 39)

/-- JSON whitespace characters accepted between tokens by json.loads. -/
def jsonWs (c : Char) : Bool :=
  c = ' ' || c = '\t' || c = '\n' || c = '\r'

/-- Skip leading JSON whitespace. -/
def skipWs (l : List Char) : List Char := l.dropWhile jsonWs

/-- Value of one hexadecimal digit. -/
def hexVal (c : Char) : Option Nat :=
  if c.isDigit then some (c.toNat - 48)
  else if 'a' ≤ c && c ≤ 'f' then some (c.toNat - 87)
  else if 'A' ≤ c && c ≤ 'F' then some (c.toNat - 55)
  else none

/-- Single-character JSON string escapes. -/
def escChar : Char → Option Char
  | '"' => some '"'
  | '\\' => some '\\'
  | '/' => some '/'
  | 'b' => some (Char.ofNat 8)
  | 'f' => some (Char.ofNat 12)
  | 'n' => some '\n'
  | 'r' => some '\r'
  | 't' => some '\t'
  | _ => none

/-- Parse the body of a JSON string literal after the opening quote,
returning the decoded characters and the remaining input.  Raw control
characters are rejected, as in json.loads strict mode. -/
def parseStrChars : List Char → Option (List Char × List Char)
  | [] => none
  | '"' :: rest => some ([], rest)
  | '\\' :: 'u' :: h1 :: h2 :: h3 :: h4 :: rest =>
    match hexVal h1, hexVal h2, hexVal h3, hexVal h4 with
    | some a, some b, some c, some d =>
      match parseStrChars rest with
      | some (cs, rem) =>
        some (Char.ofNat (((a * 16 + b) * 16 + c) * 16 + d) :: cs, rem)
      | none => none
    | _, _, _, _ => none
  | '\\' :: e :: rest =>
    match escChar e with
    | some ec =>
      match parseStrChars rest with
      | some (cs, rem) => some (ec :: cs, rem)
      | none => none
    | none => none
  | c :: rest =>
    if c.toNat < 32 then none
    else
      match parseStrChars rest with
      | some (cs, rem) => some (c :: cs, rem)
      | none => none

/-- Numeric value of a list of decimal digits. -/
def digitsToNat (l : List Char) : Nat :=
  l.foldl (fun a c => a * 10 + (c.toNat - 48)) 0

/-- Parse a JSON natural-number literal (sign handled by the caller).
A leading zero may not be followed by further digits; a fraction or an
exponent is rejected (numbers are modelled as integers). -/
def parseNat (cs : List Char) : Option (Nat × List Char) :=
  match cs with
  | [] => none
  | c :: rest =>
    if !c.isDigit then none
    else if c = '0' then
      match rest with
      | d :: _ =>
        if d.isDigit || d = '.' || d = 'e' || d = 'E' then none
        else some (0, rest)
      | [] => some (0, [])
    else
      let ds := (c :: rest).takeWhile Char.isDigit
      let rem := (c :: rest).dropWhile Char.isDigit
      match rem with
      | d :: _ =>
        if d = '.' || d = 'e' || d = 'E' then none
        else some (digitsToNat ds, rem)
      | [] => some (digitsToNat ds, [])

mutual

/-- Recursive-descent JSON value parser (fuel-indexed model of the
json.loads grammar).  Object members are folded with aInsert, so duplicate
keys behave as in Python: the last value wins at the first position. -/
def parseVal : Nat → List Char → Option (JVal × List Char)
  | 0, _ => none
  | fuel + 1, cs =>
    match skipWs cs with
    | [] => none
    | '{' :: rest =>
      match skipWs rest with
      | '}' :: rem => some (.obj [], rem)
      | cs2 =>
        match parseMembers1 fuel cs2 with
        | some (ms, rem) =>
          some (.obj (ms.foldl (fun d kv => aInsert d kv.1 kv.2) []), rem)
        | none => none
    | '[' :: rest =>
      match skipWs rest with
      | ']' :: rem => some (.arr [], rem)
      | cs2 =>
        match parseElems1 fuel cs2 with
        | some (es, rem) => some (.arr es, rem)
        | none => none
    | '"' :: rest =>
      match parseStrChars rest with
      | some (cs2, rem) => some (.str (String.mk cs2), rem)
      | none => none
    | 't' :: 'r' :: 'u' :: 'e' :: rest => some (.bool true, rest)
    | 'f' :: 'a' :: 'l' :: 's' :: 'e' :: rest => some (.bool false, rest)
    | 'n' :: 'u' :: 'l' :: 'l' :: rest => some (.null, rest)
    | '-' :: rest =>
      match parseNat rest with
      | some (n, rem) => some (.num (-(n : Int)), rem)
      | none => none
    | c :: rest =>
      if c.isDigit then
        match parseNat (c :: rest) with
        | some (n, rem) => some (.num (n : Int), rem)
        | none => none
      else none

/-- Parse one or more JSON object members (after an opening brace known not
to be immediately closed). -/
def parseMembers1 : Nat → List Char → Option (List (String × JVal) × List Char)
  | 0, _ => none
  | fuel + 1, cs =>
    match cs with
    | '"' :: rest =>
      match parseStrChars rest with
      | some (kcs, rem) =>
        match skipWs rem with
        | ':' :: rem2 =>
          match parseVal fuel rem2 with
          | some (v, rem3) =>
            match skipWs rem3 with
            | ',' :: rem4 =>
              match parseMembers1 fuel (skipWs rem4) with
              | some (ms, rem5) => some ((String.mk kcs, v) :: ms, rem5)
              | none => none
            | '}' :: rem4 => some ([(String.mk kcs, v)], rem4)
            | _ => none
          | none => none
        | _ => none
      | none => none
    | _ => none

/-- Parse one or more JSON array elements (after an opening bracket known
not to be immediately closed). -/
def parseElems1 : Nat → List Char → Option (List JVal × List Char)
  | 0, _ => none
  | fuel + 1, cs =>
    match parseVal fuel cs with
    | some (v, rem) =>
      match skipWs rem with
      | ',' :: rem2 =>
        match parseElems1 fuel rem2 with
        | some (es, rem3) => some (v :: es, rem3)
        | none => none
      | ']' :: rem2 => some ([v], rem2)
      | _ => none
    | none => none

end

/-- Model of json.loads: parse a complete JSON document, requiring that
only whitespace remains after the value. -/
def parseJson (s : String) : Option JVal :=
  match parseVal (2 * s.length + 8) s.data with
  | some (v, rem) => if (skipWs rem).isEmpty then some v else none
  | none => none

/-- Escape one character for a JSON string literal. -/
def escOut (c : Char) : String :=
  if c = '"' then "\\\""
  else if c = '\\' then "\\\\"
  else if c = '\n' then "\\n"
  else if c = '\r' then "\\r"
  else if c = '\t' then "\\t"
  else String.singleton c

mutual

/-- Deterministic rendering of a JSON document.  json.dump with indent=4 is
likewise a deterministic function of the document, so byte identity of the
on-disk file follows from equality of the rendered documents. -/
def dumpJson : JVal → String
  | .null => "null"
  | .bool b => if b then "true" else "false"
  | .num n => toString n
  | .str s => "\"" ++ String.join (s.data.map escOut) ++ "\""
  | .arr l => "[" ++ dumpElems l ++ "]"
  | .obj d => "\x7b" ++ dumpPairs d ++ "\x7d"

/-- Render array elements separated by commas. -/
def dumpElems : List JVal → String
  | [] => ""
  | [v] => dumpJson v
  | v :: rest => dumpJson v ++ ", " ++ dumpElems rest

/-- Render object members separated by commas. -/
def dumpPairs : List (String × JVal) → String
  | [] => ""
  | [(k, v)] => "\"" ++ k ++ "\": " ++ dumpJson v
  | (k, v) :: rest => "\"" ++ k ++ "\": " ++ dumpJson v ++ ", " ++ dumpPairs rest

end

/-- Code-point lexicographic comparison of character lists, the order
Python uses to compare strings. -/
def charListLe : List Char → List Char → Bool
  | [], _ => true
  | _ :: _, [] => false
  | a :: as, b :: bs =>
    if a < b then true else if b < a then false else charListLe as bs

/-- Python string comparison a <= b. -/
def keyLe (a b : String) : Bool := charListLe a.data b.data

/-- Insert a binding into a key-sorted association list, keeping it sorted:
the model of where Python sorted() places each item. -/
def insByKey (kv : String × JVal) : List (String × JVal) → List (String × JVal)
  | [] => [kv]
  | h :: t => if keyLe kv.1 h.1 then kv :: h :: t else h :: insByKey kv t

/-- Model of dict(sorted(d.items())): the bindings reordered so keys are
lexicographically ascending. -/
def sortByKey (d : List (String × JVal)) : List (String × JVal) :=
  d.foldr insByKey []

/-- Python whitespace stripped by int() around a numeric literal. -/
def pyWsChar (c : Char) : Bool :=
  c = ' ' || c = '\t' || c = '\n' || c = '\r' || c = '\x0b' || c = '\x0c'

/-- Accumulate decimal digits, allowing a single underscore between digits
as Python's int() does. -/
def pyDigits : Nat → List Char → Option Nat
  | acc, [] => some acc
  | acc, '_' :: c :: rest =>
    if c.isDigit then pyDigits (acc * 10 + (c.toNat - 48)) rest else none
  | _, ['_'] => none
  | acc, c :: rest =>
    if c.isDigit then pyDigits (acc * 10 + (c.toNat - 48)) rest else none

/-- Model of Python int(s) in base 10: strip whitespace, accept an optional
sign, then digits (with underscores between digits); none models a raised
ValueError. -/
def pyInt (s : String) : Option Int :=
  let cs := ((s.data.dropWhile pyWsChar).reverse.dropWhile pyWsChar).reverse
  match cs with
  | [] => none
  | '-' :: rest =>
    match rest with
    | c :: rest2 =>
      if c.isDigit then (pyDigits (c.toNat - 48) rest2).map (fun n => -(n : Int))
      else none
    | [] => none
  | '+' :: rest =>
    match rest with
    | c :: rest2 =>
      if c.isDigit then (pyDigits (c.toNat - 48) rest2).map (fun n => (n : Int))
      else none
    | [] => none
  | c :: rest =>
    if c.isDigit then (pyDigits (c.toNat - 48) rest).map (fun n => (n : Int))
    else none

/-- Model of kv_rule.select_dictionary_range: the dict comprehension keeps
the items whose key, parsed by int(), lies in [start_key, end_key]; the
first unparseable key raises ValueError (modelled by the error case). -/
def select_dictionary_range (input_dict : List (String × JVal))
    (start_key end_key : Int) : Except String (List (String × JVal)) :=
  match input_dict with
  | [] => .ok []
  | (key, value) :: rest =>
    match pyInt key with
    | none => .error ("ValueError: invalid literal for int() with base 10: " ++ key)
    | some n =>
      match select_dictionary_range rest start_key end_key with
      | .error e => .error e
      | .ok sel =>
        if start_key ≤ n ∧ n ≤ end_key then .ok ((key, value) :: sel)
        else .ok sel

/-- State of the JSON file backing the persistent store: absent, holding a
parsed document, or unparseable (json.JSONDecodeError on load). -/
inductive FileState where
  | absent : FileState
  | holds : JVal → FileState
  | corrupt : FileState

deriving Repr

/-- The key loop of kv_rule.update_json_if_different.  On a dict, a key
whose stored value equals the new value is skipped, otherwise assigned;
Python's deep equality is modelled by structural equality of JVal, which
coincides with it on the documents of this model (a json round trip
preserves key order, so a reloaded value is structurally identical).
On any non-dict document the statement `existing_data[key] = value` (or the
indexing inside the membership test) raises TypeError. -/
def mergeLoop (existing : JVal) : List (String × JVal) → Except String JVal
  | [] => .ok existing
  | (key, value) :: rest =>
    match existing with
    | .obj d =>
      if aGet d key = some value then mergeLoop (.obj d) rest
      else mergeLoop (.obj (aInsert d key value)) rest
    | _ => .error "TypeError: list indices must be integers or slices, not str"

/-- Model of kv_rule.update_json_if_different.  A missing file is first
created holding the empty JSON list (json.dump([], file) in the source); a
corrupt file loads as the empty dict.  After the merge loop the whole
document is rewritten as dict(sorted(existing_data.items())), which needs
.items() and therefore raises AttributeError on a non-dict document.  The
function returns the written state together with the in-memory merged
document (the source's return existing_data). -/
def update_json_if_different (fs : FileState) (new_data : List (String × JVal)) :
    Except String (FileState × JVal) :=
  let fs1 : FileState :=
    match fs with
    | .absent => .holds (.arr [])
    | other => other
  let existing : JVal :=
    match fs1 with
    | .holds v => v
    | _ => .obj []
  match mergeLoop existing new_data with
  | .error e => .error e
  | .ok merged =>
    match merged with
    | .obj d => .ok (.holds (.obj (sortByKey d)), merged)
    | _ => .error "AttributeError: object has no attribute items"

/-- Page loop of kv_termArrange.flatten_json: a string page is parsed as
JSON (an unparseable page is skipped with a warning), then every rule of
the page is assigned into the flat dict; a page that is neither a dict nor
a string (nor parses to a dict) makes rules.items() raise. -/
def flattenPages (flattened : List (String × JVal)) :
    List (String × JVal) → Except String (List (String × JVal))
  | [] => .ok flattened
  | (_page, rules) :: rest =>
    match rules with
    | .str s =>
      match parseJson s with
      | none => flattenPages flattened rest
      | some (.obj rd) =>
        flattenPages (rd.foldl (fun a kv => aInsert a kv.1 kv.2) flattened) rest
      | some _ => .error "AttributeError: object has no attribute items"
    | .obj rd =>
      flattenPages (rd.foldl (fun a kv => aInsert a kv.1 kv.2) flattened) rest
    | _ => .error "AttributeError: object has no attribute items"

/-- Model of kv_termArrange.flatten_json restricted to its data
transformation (file I/O stripped): page-keyed document in, rule-keyed
document out. -/
def flatten_json (data : List (String × JVal)) :
    Except String (List (String × JVal)) :=
  flattenPages [] data

/-- The accumulated record of one term in kv_termArrange.extract_terms.
page_number and rule_number are Python sets, modelled as duplicate-free
lists in insertion order (the source converts them to lists before
serialization; their order is unspecified set order). -/
structure TermRec where
  page_number : List JVal
  rule_number : List JVal
  definition : JVal
  terms : String
  measurements : String

deriving Repr, DecidableEq

/-- The defaultdict default record of extract_terms. -/
def newTermRec : TermRec :=
  { page_number := [], rule_number := [], definition := .str "", terms := "",
    measurements := "" }

/-- Body of the per-term loop of extract_terms: add the page to the page
set, the owning rule (the value of the terms mapping) to the rule set, keep
the definition if it is already truthy and record it otherwise, and store
the raw term name. -/
def processTerm (acc : List (String × TermRec)) (page_number definition : JVal)
    (term : String) (term_rule : JVal) : List (String × TermRec) :=
  let cur := (aGet acc term).getD newTermRec
  let upd : TermRec :=
    { cur with
      page_number := setAdd cur.page_number page_number,
      rule_number := setAdd cur.rule_number term_rule,
      definition := if jTruthy cur.definition then cur.definition else definition,
      terms := term }
  aInsert acc term upd

/-- Per-record step of extract_terms Step 3: read page_number (default: the
page key), definition (default: empty) and the terms sub-mapping (default:
empty dict), then fold every (term, owning rule) pair.  The source also
reads rule_number with default key, but never uses it in the loop.  A
non-dict record or terms field raises AttributeError. -/
def processRecord (acc : List (String × TermRec)) (page : String)
    (key_data : JVal) : Except String (List (String × TermRec)) :=
  match key_data with
  | .obj kd =>
    let page_number := (aGet kd "page_number").getD (.str page)
    let definition := (aGet kd "definition").getD (.str "")
    match (aGet kd "terms").getD (.obj []) with
    | .obj ts =>
      .ok (ts.foldl (fun a kv => processTerm a page_number definition kv.1 kv.2) acc)
    | _ => .error "AttributeError: object has no attribute items"
  | _ => .error "AttributeError: object has no attribute get"

/-- Fold processRecord over the records of one page. -/
def foldRecords (acc : List (String × TermRec)) (page : String) :
    List (String × JVal) → Except String (List (String × TermRec))
  | [] => .ok acc
  | (_k, kd) :: rest =>
    match processRecord acc page kd with
    | .error e => .error e
    | .ok acc2 => foldRecords acc2 page rest

/-- Apply foldRecords to a page value already coerced to a JSON value; a
non-dict page makes keys.items() raise. -/
def processKeys (acc : List (String × TermRec)) (page : String) :
    JVal → Except String (List (String × TermRec))
  | .obj ks => foldRecords acc page ks
  | _ => .error "AttributeError: object has no attribute items"

/-- Page step of extract_terms Step 3: a string page is parsed as JSON and
an unparseable page is skipped with a warning. -/
def processPage (acc : List (String × TermRec)) (page : String) (keys : JVal) :
    Except String (List (String × TermRec)) :=
  match keys with
  | .str s =>
    match parseJson s with
    | none => .ok acc
    | some r => processKeys acc page r
  | v => processKeys acc page v

/-- Fold processPage over all pages of the input document. -/
def aggPages (acc : List (String × TermRec)) :
    List (String × JVal) → Except String (List (String × TermRec))
  | [] => .ok acc
  | (page, keys) :: rest =>
    match processPage acc page keys with
    | .error e => .error e
    | .ok acc2 => aggPages acc2 rest

/-- Steps 2 to 4 of extract_terms: the concatenated_terms accumulator built
over all pages.  Step 4 (converting the page and rule sets to lists) is the
identity in this model, where sets are already lists. -/
def aggregateTerms (data : List (String × JVal)) :
    Except String (List (String × TermRec)) :=
  aggPages [] data

/-- Restructuring of one record in extract_terms Step 5: keep rule_number,
definition and terms (with their getitem defaults) and reset measurements
to an empty dict; a non-dict record raises AttributeError on .get. -/
def flattenRecordEntry (value : JVal) : Except String JVal :=
  match value with
  | .obj vd =>
    .ok (.obj [("rule_number", (aGet vd "rule_number").getD (.str "")),
               ("definition", (aGet vd "definition").getD (.str "")),
               ("terms", (aGet vd "terms").getD (.obj [])),
               ("measurements", .obj [])])
  | _ => .error "AttributeError: object has no attribute get"

/-- Fold flattenRecordEntry over the records of one page in Step 5. -/
def step5Records (fd : List (String × JVal)) :
    List (String × JVal) → Except String (List (String × JVal))
  | [] => .ok fd
  | (k, v) :: rest =>
    match flattenRecordEntry v with
    | .error e => .error e
    | .ok fv => step5Records (aInsert fd k fv) rest

/-- Page loop of extract_terms Step 5, with the same string coercion and
skip-on-parse-failure as Step 3. -/
def step5Pages (fd : List (String × JVal)) :
    List (String × JVal) → Except String (List (String × JVal))
  | [] => .ok fd
  | (_page, keys) :: rest =>
    match keys with
    | .str s =>
      match parseJson s with
      | none => step5Pages fd rest
      | some (.obj ks) =>
        match step5Records fd ks with
        | .error e => .error e
        | .ok fd2 => step5Pages fd2 rest
      | some _ => .error "AttributeError: object has no attribute items"
    | .obj ks =>
      match step5Records fd ks with
      | .error e => .error e
      | .ok fd2 => step5Pages fd2 rest
    | _ => .error "AttributeError: object has no attribute items"

/-- Serialization of an accumulated term record, in the key order the
defaultdict default literal fixes. -/
def TermRec.toJVal (t : TermRec) : JVal :=
  .obj [("page_number", .arr t.page_number), ("rule_number", .arr t.rule_number),
        ("definition", t.definition), ("terms", .str t.terms),
        ("measurements", .str t.measurements)]

/-- Model of kv_termArrange.extract_terms (file I/O stripped): aggregate
the term records (Steps 2 to 4), flatten the rule records (Step 5), then
flattened_data.update(concatenated_terms) merges the term-keyed entries
over the rule-keyed ones (Step 6). -/
def extract_terms (data : List (String × JVal)) :
    Except String (List (String × JVal)) :=
  match aggregateTerms data with
  | .error e => .error e
  | .ok concatenated_terms =>
    match step5Pages [] data with
    | .error e => .error e
    | .ok flattened_data =>
      .ok (concatenated_terms.foldl (fun fd kv => aInsert fd kv.1 kv.2.toJVal)
        flattened_data)

/-- Diagnostic returned by extract_information when a rule key is absent. -/
def keyNotFoundMsg (k : String) : String :=
  "Key " ++ sqt ++ k ++ sqt ++ " not found in the JSON file."

/-- Diagnostic returned when a rule key is present with a falsy definition. -/
def noDefMsg (k : String) : String := "No definition found for key: " ++ k

/-- Diagnostic returned when no term key matches case-insensitively. -/
def termNotFoundMsg (k : String) : String :=
  "Technical term " ++ sqt ++ k ++ sqt ++ " not found in the JSON file."

/-- Diagnostic returned for an unrecognized information_to_extract mode. -/
def invalidInfoMsg (i : String) : String :=
  "Invalid information_to_extract value: " ++ i ++ ". Use " ++ sqt ++
    "definition" ++ sqt ++ " or " ++ sqt ++ "rule_numbers" ++ sqt ++ "."

/-- The rule_numbers loop of extract_information (kv_qa.py and its copy in
kv_termArrange.py): every record value is coerced from a string if needed
(parse failure skips the record), its terms sub-mapping likewise, and every
term whose lowercased key equals the lowercased query appends its owning
rule; .get on a non-dict record or .items() on a non-dict terms raises. -/
def ruleNumbersLoop (rule_numbers : List JVal) (key_to_extract : String) :
    List (String × JVal) → Except String (List JVal)
  | [] => .ok rule_numbers
  | (_k, value) :: rest =>
    match (match value with | .str s => parseJson s | v => some v) with
    | none => ruleNumbersLoop rule_numbers key_to_extract rest
    | some (.obj vd) =>
      match (aGet vd "terms").getD (.obj []) with
      | .str ts =>
        match parseJson ts with
        | none => ruleNumbersLoop rule_numbers key_to_extract rest
        | some (.obj td) =>
          ruleNumbersLoop (rule_numbers ++ td.filterMap (fun kv =>
            if pyLower kv.1 = pyLower key_to_extract then some kv.2 else none))
            key_to_extract rest
        | some _ => .error "AttributeError: object has no attribute items"
      | .obj td =>
        ruleNumbersLoop (rule_numbers ++ td.filterMap (fun kv =>
          if pyLower kv.1 = pyLower key_to_extract then some kv.2 else none))
          key_to_extract rest
      | _ => .error "AttributeError: object has no attribute items"
    | some _ => .error "AttributeError: object has no attribute get"

/-- Model of extract_information (kv_qa.py, duplicated in kv_termArrange).
definition mode: exact key lookup, returning the stored definition when
truthy and a descriptive message otherwise; rule_numbers mode: the
case-insensitive scan of all terms sub-mappings, returning the collected
owning rules or a not-found message; any other mode: an invalid-mode
message. -/
def extract_information (data : List (String × JVal)) (key_to_extract : String)
    (information_to_extract : String) : Except String JVal :=
  if information_to_extract = "definition" then
    match aGet data key_to_extract with
    | some (.obj vd) =>
      let definition := (aGet vd "definition").getD (.str "")
      if jTruthy definition then .ok definition
      else .ok (.str (noDefMsg key_to_extract))
    | some _ => .error "AttributeError: object has no attribute get"
    | none => .ok (.str (keyNotFoundMsg key_to_extract))
  else if information_to_extract = "rule_numbers" then
    match ruleNumbersLoop [] key_to_extract data with
    | .error e => .error e
    | .ok rns =>
      if rns.isEmpty then .ok (.str (termNotFoundMsg key_to_extract))
      else .ok (.arr rns)
  else
    .ok (.str (invalidInfoMsg information_to_extract))

/-- Model of kv_term.add_rule_number_to_measurements: set value["rule#"] =
rule_number on every entry of the dict; item assignment on a non-dict entry
raises TypeError. -/
def add_rule_number_to_measurements (data_dict : List (String × JVal))
    (rule_number : JVal) : Except String (List (String × JVal)) :=
  match data_dict with
  | [] => .ok []
  | (key, value) :: rest =>
    match value with
    | .obj vd =>
      match add_rule_number_to_measurements rest rule_number with
      | .error e => .error e
      | .ok rest2 => .ok ((key, .obj (aInsert vd "rule#" rule_number)) :: rest2)
    | _ => .error "TypeError: object does not support item assignment"

/-- The JSON coercion step shared by invoke_llm (kv_term.py) and the page
and terms coercions of kv_termArrange.py: a string is parsed as JSON, with
the empty dict as the fallback on parse failure; every other value passes
through unchanged. -/
def jsonCoerce (v : JVal) : JVal :=
  match v with
  | .str s =>
    match parseJson s with
    | some r => r
    | none => .obj []
  | other => other

deriving instance DecidableEq for Except

/-- First-some choice on options, used to state last-writer-wins lookups. -/
def oElse {α : Type} (a b : Option α) : Option α :=
  match a with
  | some v => some v
  | none => b

/-- The value attached to the last occurrence of a key in an association
list: the record that survives a left-to-right sequence of dict
assignments. -/
def lookupLast {α : Type} : List (String × α) → String → Option α
  | [], _ => none
  | (k0, v0) :: t, k => oElse (lookupLast t k) (if k0 = k then some v0 else none)

/-- Pure form of the mergeLoop on a dict store, for stating its effect. -/
def mergeList (d : List (String × JVal)) :
    List (String × JVal) → List (String × JVal)
  | [] => d
  | (k, v) :: rest =>
    if aGet d k = some v then mergeList d rest
    else mergeList (aInsert d k v) rest

deriving instance DecidableEq for FileState

/-- Rendered bytes of the store file, when one exists. -/
def storeDump : FileState → Option String
  | .holds v => some (dumpJson v)
  | _ => none

/-- Declarative range test on a key: it parses as an integer lying in the
inclusive range. -/
def keyInRange (s e : Int) (k : String) : Bool :=
  match pyInt k with
  | some n => decide (s ≤ n) && decide (n ≤ e)
  | none => false

/-- The per-entry effect of add_rule_number_to_measurements on a dict
entry. -/
def addRuleField (v : JVal) (rn : JVal) : JVal :=
  match v with
  | .obj vd => .obj (aInsert vd "rule#" rn)
  | other => other

/-- The rules contributed by one page value to the flatten traversal: the
page object itself, or the parse of a string page (empty when the parse
fails and the page is skipped). -/
def pageRules (v : JVal) : List (String × JVal) :=
  match v with
  | .str s =>
    match parseJson s with
    | some (.obj rd) => rd
    | _ => []
  | .obj rd => rd
  | _ => []

/-- The (rule, record) pairs of a page-keyed document in traversal order:
pages in insertion order, rules within each page in insertion order. -/
def flatTraversal (data : List (String × JVal)) : List (String × JVal) :=
  data.flatMap (fun kv => pageRules kv.2)

/-- A page value flatten_json accepts: an object, or a string that either
fails to parse (the page is skipped) or parses to an object. -/
def flattenPageWF (v : JVal) : Bool :=
  match v with
  | .obj _ => true
  | .str s =>
    match parseJson s with
    | none => true
    | some (.obj _) => true
    | some _ => false
  | _ => false

/-- Well-formedness of the terms field of one record for the rule_numbers
scan: an object, or a string that parses to an object or fails to parse
(in which case the record is skipped). -/
def qaTermsWF (vd : List (String × JVal)) : Bool :=
  match (aGet vd "terms").getD (.obj []) with
  | .obj _ => true
  | .str s =>
    match parseJson s with
    | none => true
    | some (.obj _) => true
    | some _ => false
  | _ => false

/-- Well-formedness of one document entry for the rule_numbers scan. -/
def qaEntryWF (v : JVal) : Bool :=
  match v with
  | .obj vd => qaTermsWF vd
  | .str s =>
    match parseJson s with
    | none => true
    | some (.obj vd) => qaTermsWF vd
    | some _ => false
  | _ => false

/-- The owning rules one entry contributes to the rule_numbers scan: the
values of its (coerced) terms mapping at keys matching the query
case-insensitively; empty when the entry or its terms are skipped. -/
def entryMatches (q : String) (v : JVal) : List JVal :=
  match (match v with | .str s => parseJson s | w => some w) with
  | some (.obj vd) =>
    match (aGet vd "terms").getD (.obj []) with
    | .str ts =>
      match parseJson ts with
      | some (.obj td) =>
        td.filterMap (fun kv =>
          if pyLower kv.1 = pyLower q then some kv.2 else none)
      | _ => []
    | .obj td =>
      td.filterMap (fun kv =>
        if pyLower kv.1 = pyLower q then some kv.2 else none)
    | _ => []
  | _ => []

/-- All owning rules collected over the document in traversal order. -/
def collectMatches (data : List (String × JVal)) (q : String) : List JVal :=
  data.flatMap (fun kv => entryMatches q kv.2)

/-- Concrete term-keyed document for exercising extract_information: rule
V.1.2 with a definition, and rule V.1.3 owning the term key Rollover
Stability. -/
def qaExampleDoc : List (String × JVal) :=
  [("V.1.2", JVal.obj [("definition", JVal.str "Wheelbase minimum 1525 mm")]),
   ("V.1.3", JVal.obj [("definition", JVal.str "Rollover stability rule"),
     ("terms", JVal.obj [("Rollover Stability", JVal.str "V.1.3")])])]

/-- One (page number, definition, term, owning rule) occurrence in the
extract_terms traversal. -/
structure Trip where
  pageNum : JVal
  defn : JVal
  term : String
  rule : JVal

deriving Repr, DecidableEq

/-- The per-trip accumulator step: the body of the per-term loop. -/
def stepTrip (acc : List (String × TermRec)) (tr : Trip) : List (String × TermRec) :=
  processTerm acc tr.pageNum tr.defn tr.term tr.rule

/-- The trips contributed by one record in traversal order. -/
def recordTrips (page : String) (kd : JVal) : List Trip :=
  match kd with
  | .obj d =>
    match (aGet d "terms").getD (.obj []) with
    | .obj ts =>
      ts.map (fun kv =>
        ⟨(aGet d "page_number").getD (.str page),
         (aGet d "definition").getD (.str ""), kv.1, kv.2⟩)
    | _ => []
  | _ => []

/-- The trips contributed by one page (with its string coercion). -/
def pageTrips (page : String) (v : JVal) : List Trip :=
  match (match v with | .str s => parseJson s | w => some w) with
  | some (.obj ks) => ks.flatMap (fun kv => recordTrips page kv.2)
  | _ => []

/-- All trips of the document in traversal order. -/
def docTrips (data : List (String × JVal)) : List Trip :=
  data.flatMap (fun kv => pageTrips kv.1 kv.2)

/-- Well-formedness of one record for extract_terms: an object whose terms
field (default empty dict) is an object and whose definition field (default
empty string) is a string. -/
def recordWF (kd : JVal) : Bool :=
  match kd with
  | .obj d =>
    (match (aGet d "terms").getD (.obj []) with
     | .obj _ => true
     | _ => false) &&
    (match (aGet d "definition").getD (.str "") with
     | .str _ => true
     | _ => false)
  | _ => false

/-- Well-formedness of one page for extract_terms. -/
def pageWF (v : JVal) : Bool :=
  match v with
  | .obj ks => ks.all (fun kv => recordWF kv.2)
  | .str s =>
    match parseJson s with
    | none => true
    | some (.obj ks) => ks.all (fun kv => recordWF kv.2)
    | some _ => false
  | _ => false

/-- Well-formedness of a rule-keyed document for extract_terms. -/
def docWF (data : List (String × JVal)) : Bool :=
  data.all (fun kv => pageWF kv.2)

/-- The effect of one trip on the record of its own term. -/
def applyTrip (cur : TermRec) (tr : Trip) : TermRec :=
  { cur with
    page_number := setAdd cur.page_number tr.pageNum,
    rule_number := setAdd cur.rule_number tr.rule,
    definition := if jTruthy cur.definition then cur.definition else tr.defn,
    terms := tr.term }

/-- The set of owning rules attached to the trips of one term, in traversal
order. -/
def ownersOf (trips : List Trip) (t : String) : List JVal :=
  (trips.filter (fun tr => tr.term == t)).map (fun tr => tr.rule)

/-- The definitions attached to the trips of one term, in traversal order. -/
def defsOf (trips : List Trip) (t : String) : List JVal :=
  (trips.filter (fun tr => tr.term == t)).map (fun tr => tr.defn)

example : aGet [("a", JVal.num 1), ("b", JVal.num 2)] "b" = some (JVal.num 2) := by decide

example : aInsert [("a", JVal.num 1)] "a" (JVal.num 5) = [("a", JVal.num 5)] := by decide

example : parseJson "\x7b\"a\": 1\x7d" = some (JVal.obj [("a", JVal.num 1)]) := by decide

example : parseJson "not json" = none := by decide

example : parseJson "3" = some (JVal.num 3) := by decide

example : parseJson " [1, \"x\", \x7b\x7d, true, null, -2] " =
    some (JVal.arr [JVal.num 1, JVal.str "x", JVal.obj [], JVal.bool true,
      JVal.null, JVal.num (-2)]) := by decide

example : parseJson "\x7b\"a\": 1, \"a\": 2\x7d" = some (JVal.obj [("a", JVal.num 2)]) := by
  decide

example : pyInt "16" = some 16 := by decide

example : pyInt " -3 " = some (-3) := by decide

example : pyInt "V.1.2" = none := by decide

example : sortByKey [("b", JVal.num 2), ("a", JVal.num 1)] =
    [("a", JVal.num 1), ("b", JVal.num 2)] := by decide

example : extract_information [("V.1.2", JVal.obj [("definition", JVal.str "Wheelbase")])]
    "V.1.2" "definition" = .ok (JVal.str "Wheelbase") := by decide

example : extract_information [] "V.9" "definition" =
    .ok (JVal.str (keyNotFoundMsg "V.9")) := by decide

example : add_rule_number_to_measurements
    [("parameter1", JVal.obj [("type", JVal.str "power")])] (JVal.str "V.1.2") =
    .ok [("parameter1", JVal.obj [("type", JVal.str "power"),
      ("rule#", JVal.str "V.1.2")])] := by decide

theorem keysNodup_cons {α : Type} (k0 : String) (v0 : α) (t : List (String × α)) :
    keysNodup ((k0, v0) :: t) ↔ k0 ∉ t.map Prod.fst ∧ keysNodup t := by
  unfold keysNodup
  rw [List.map_cons, List.nodup_cons]

theorem aGet_cons {α : Type} (k0 : String) (v0 : α) (t : List (String × α))
    (k : String) : aGet ((k0, v0) :: t) k = if k0 = k then some v0 else aGet t k :=
  rfl

theorem aInsert_cons {α : Type} (k0 : String) (v0 : α) (t : List (String × α))
    (k : String) (v : α) : aInsert ((k0, v0) :: t) k v =
      if k0 = k then (k0, v) :: t else (k0, v0) :: aInsert t k v :=
  rfl

theorem aGet_aInsert_self {α : Type} (d : List (String × α)) (k : String) (v : α) :
    aGet (aInsert d k v) k = some v := by
  induction d with
  | nil => simp [aInsert, aGet]
  | cons hd t ih =>
    obtain ⟨k0, v0⟩ := hd
    by_cases hk : k0 = k
    · subst hk
      simp [aInsert_cons, aGet_cons]
    · simp [aInsert_cons, aGet_cons, hk, ih]

theorem aGet_aInsert_ne {α : Type} (d : List (String × α)) (k j : String) (v : α)
    (h : j ≠ k) : aGet (aInsert d k v) j = aGet d j := by
  have hkj : ¬ (k = j) := fun he => h he.symm
  induction d with
  | nil => simp [aInsert, aGet, hkj]
  | cons hd t ih =>
    obtain ⟨k0, v0⟩ := hd
    by_cases hk : k0 = k
    · subst hk
      rw [aInsert_cons, if_pos rfl, aGet_cons, if_neg hkj, aGet_cons, if_neg hkj]
    · by_cases hj : k0 = j
      · rw [aInsert_cons, if_neg hk, aGet_cons, if_pos hj, aGet_cons, if_pos hj]
      · rw [aInsert_cons, if_neg hk, aGet_cons, if_neg hj, aGet_cons, if_neg hj, ih]

theorem mem_keys_aInsert {α : Type} (d : List (String × α)) (k x : String) (v : α) :
    x ∈ (aInsert d k v).map Prod.fst ↔ x ∈ d.map Prod.fst ∨ x = k := by
  induction d with
  | nil => simp [aInsert]
  | cons hd t ih =>
    obtain ⟨k0, v0⟩ := hd
    by_cases hk : k0 = k
    · subst hk
      rw [aInsert_cons, if_pos rfl]
      simp only [List.map_cons, List.mem_cons]
      tauto
    · rw [aInsert_cons, if_neg hk]
      simp only [List.map_cons, List.mem_cons]
      rw [ih]
      tauto

theorem keysNodup_aInsert {α : Type} (d : List (String × α)) (k : String) (v : α)
    (h : keysNodup d) : keysNodup (aInsert d k v) := by
  induction d with
  | nil =>
    unfold keysNodup
    simp [aInsert]
  | cons hd t ih =>
    obtain ⟨k0, v0⟩ := hd
    rw [keysNodup_cons] at h
    obtain ⟨h1, h2⟩ := h
    by_cases hk : k0 = k
    · subst hk
      rw [aInsert_cons, if_pos rfl, keysNodup_cons]
      exact ⟨h1, h2⟩
    · rw [aInsert_cons, if_neg hk, keysNodup_cons]
      refine ⟨?_, ih h2⟩
      intro hc
      rw [mem_keys_aInsert] at hc
      rcases hc with hc | hc
      · exact h1 hc
      · exact hk hc

theorem aGet_eq_none_iff {α : Type} (d : List (String × α)) (k : String) :
    aGet d k = none ↔ k ∉ d.map Prod.fst := by
  induction d with
  | nil => simp [aGet]
  | cons hd t ih =>
    obtain ⟨k0, v0⟩ := hd
    by_cases hk : k0 = k
    · subst hk
      simp [aGet_cons]
    · rw [aGet_cons, if_neg hk, List.map_cons]
      simp only [List.mem_cons]
      rw [ih]
      constructor
      · intro hn hc
        rcases hc with hc | hc
        · exact hk hc.symm
        · exact hn hc
      · intro hn hc
        exact hn (Or.inr hc)

theorem aGet_eq_some_iff_mem {α : Type} (d : List (String × α)) (k : String) (v : α)
    (h : keysNodup d) : aGet d k = some v ↔ (k, v) ∈ d := by
  induction d with
  | nil => simp [aGet]
  | cons hd t ih =>
    obtain ⟨k0, v0⟩ := hd
    rw [keysNodup_cons] at h
    obtain ⟨h1, h2⟩ := h
    by_cases hk : k0 = k
    · subst hk
      rw [aGet_cons, if_pos rfl, List.mem_cons]
      constructor
      · intro he
        injection he with he2
        subst he2
        exact Or.inl rfl
      · intro hm
        rcases hm with hm | hm
        · rw [Prod.mk.injEq] at hm
          rw [hm.2]
        · exact absurd (List.mem_map.mpr ⟨(k0, v), hm, rfl⟩) h1
    · rw [aGet_cons, if_neg hk, List.mem_cons, ih h2]
      constructor
      · intro hm
        exact Or.inr hm
      · intro hm
        rcases hm with hm | hm
        · rw [Prod.mk.injEq] at hm
          exact absurd hm.1.symm hk
        · exact hm

theorem lookupLast_eq_none_iff {α : Type} (l : List (String × α)) (k : String) :
    lookupLast l k = none ↔ k ∉ l.map Prod.fst := by
  induction l with
  | nil => simp [lookupLast]
  | cons hd t ih =>
    obtain ⟨k0, v0⟩ := hd
    rw [List.map_cons]
    simp only [List.mem_cons]
    cases hl : lookupLast t k with
    | some w =>
      have hmem : k ∈ t.map Prod.fst := by
        by_contra hkm
        rw [ih.mpr hkm] at hl
        cases hl
      constructor
      · intro hc
        simp only [lookupLast, hl, oElse] at hc
        exact Option.noConfusion hc
      · intro hc
        exact absurd (Or.inr hmem) hc
    | none =>
      by_cases hk : k0 = k
      · subst hk
        simp [lookupLast, hl, oElse]
      · have hk2 : ¬ k = k0 := fun he => hk he.symm
        simp [lookupLast, hl, oElse, hk, hk2, ih.mp hl]

theorem lookupLast_of_nodup {α : Type} (l : List (String × α)) (k : String) (v : α)
    (hnd : keysNodup l) (hm : (k, v) ∈ l) : lookupLast l k = some v := by
  induction l with
  | nil => cases hm
  | cons hd t ih =>
    obtain ⟨k0, v0⟩ := hd
    rw [keysNodup_cons] at hnd
    obtain ⟨h1, h2⟩ := hnd
    rcases List.mem_cons.mp hm with hm | hm
    · rw [Prod.mk.injEq] at hm
      obtain ⟨hk, hv⟩ := hm
      subst hk
      subst hv
      have hn : lookupLast t k = none := (lookupLast_eq_none_iff t k).mpr h1
      simp [lookupLast, hn, oElse]
    · have := ih h2 hm
      simp [lookupLast, this, oElse]

theorem keysNodup_perm {α : Type} (l1 l2 : List (String × α)) (hp : l1.Perm l2) :
    keysNodup l1 ↔ keysNodup l2 :=
  (hp.map Prod.fst).nodup_iff

theorem aGet_perm {α : Type} (l1 l2 : List (String × α)) (hp : l1.Perm l2)
    (hnd : keysNodup l2) (k : String) : aGet l1 k = aGet l2 k := by
  have hnd1 : keysNodup l1 := (keysNodup_perm l1 l2 hp).mpr hnd
  cases hg : aGet l2 k with
  | some v =>
    have hm : (k, v) ∈ l2 := (aGet_eq_some_iff_mem l2 k v hnd).mp hg
    have hm1 : (k, v) ∈ l1 := hp.symm.subset hm
    exact (aGet_eq_some_iff_mem l1 k v hnd1).mpr hm1
  | none =>
    have hm : k ∉ l2.map Prod.fst := (aGet_eq_none_iff l2 k).mp hg
    have hm1 : k ∉ l1.map Prod.fst := fun hc => hm ((hp.map Prod.fst).subset hc)
    exact (aGet_eq_none_iff l1 k).mpr hm1

theorem aGet_foldl_aInsert {α : Type} (l : List (String × α))
    (acc : List (String × α)) (k : String) :
    aGet (l.foldl (fun d kv => aInsert d kv.1 kv.2) acc) k =
      oElse (lookupLast l k) (aGet acc k) := by
  induction l generalizing acc with
  | nil => simp [lookupLast, oElse]
  | cons hd t ih =>
    obtain ⟨k0, v0⟩ := hd
    rw [List.foldl_cons, ih]
    by_cases hk : k0 = k
    · subst hk
      rw [aGet_aInsert_self]
      cases hl : lookupLast t k0 <;> simp [lookupLast, hl, oElse]
    · rw [aGet_aInsert_ne acc k0 k v0 (fun he => hk he.symm)]
      cases hl : lookupLast t k <;> simp [lookupLast, hl, oElse, hk]

theorem insByKey_cons (kv h : String × JVal) (t : List (String × JVal)) :
    insByKey kv (h :: t) =
      if keyLe kv.1 h.1 then kv :: h :: t else h :: insByKey kv t :=
  rfl

theorem insByKey_perm (kv : String × JVal) (l : List (String × JVal)) :
    (insByKey kv l).Perm (kv :: l) := by
  induction l with
  | nil => exact List.Perm.refl _
  | cons h t ih =>
    rw [insByKey_cons]
    by_cases hle : keyLe kv.1 h.1 = true
    · rw [if_pos hle]
    · rw [if_neg hle]
      exact (List.Perm.cons h ih).trans (List.Perm.swap kv h t)

theorem sortByKey_perm (l : List (String × JVal)) : (sortByKey l).Perm l := by
  induction l with
  | nil => exact List.Perm.refl _
  | cons h t ih =>
    exact (insByKey_perm h (sortByKey t)).trans (List.Perm.cons h ih)

theorem keyLe_refl (a : String) : keyLe a a = true := by
  unfold keyLe
  induction a.data with
  | nil => rfl
  | cons c cs ih => simp [charListLe, ih]

theorem charListLe_total (a b : List Char) :
    charListLe a b = true ∨ charListLe b a = true := by
  induction a generalizing b with
  | nil => exact Or.inl rfl
  | cons c as ih =>
    cases b with
    | nil => exact Or.inr rfl
    | cons d bs =>
      by_cases h1 : c < d
      · left
        simp [charListLe, h1]
      · by_cases h2 : d < c
        · right
          simp [charListLe, h2]
        · rcases ih bs with h | h
          · left
            simp [charListLe, h1, h2, h]
          · right
            simp [charListLe, h1, h2, h]

theorem keyLe_total (a b : String) : keyLe a b = true ∨ keyLe b a = true :=
  charListLe_total a.data b.data

theorem ksorted_insByKey (kv : String × JVal) (l : List (String × JVal))
    (h : List.Chain' (fun a b => keyLe a.1 b.1 = true) l) :
    List.Chain' (fun a b => keyLe a.1 b.1 = true) (insByKey kv l) := by
  induction l with
  | nil => simp [insByKey]
  | cons hd t ih =>
    rw [insByKey_cons]
    by_cases hle : keyLe kv.1 hd.1 = true
    · rw [if_pos hle, List.chain'_cons]
      exact ⟨hle, h⟩
    · rw [if_neg hle]
      have hh : keyLe hd.1 kv.1 = true := by
        rcases keyLe_total kv.1 hd.1 with hc | hc
        · exact absurd hc hle
        · exact hc
      have hins := ih h.tail
      rw [List.chain'_cons']
      refine ⟨?_, hins⟩
      intro y hy
      cases t with
      | nil =>
        simp [insByKey] at hy
        subst hy
        exact hh
      | cons h2 t2 =>
        rw [insByKey_cons] at hy
        by_cases hle2 : keyLe kv.1 h2.1 = true
        · rw [if_pos hle2] at hy
          simp at hy
          subst hy
          exact hh
        · rw [if_neg hle2] at hy
          simp at hy
          subst hy
          rw [List.chain'_cons] at h
          exact h.1

theorem ksorted_sortByKey (l : List (String × JVal)) :
    List.Chain' (fun a b => keyLe a.1 b.1 = true) (sortByKey l) := by
  induction l with
  | nil => simp [sortByKey]
  | cons h t ih => exact ksorted_insByKey h (sortByKey t) ih

theorem sortByKey_eq_of_sorted (l : List (String × JVal))
    (h : List.Chain' (fun a b => keyLe a.1 b.1 = true) l) : sortByKey l = l := by
  induction l with
  | nil => rfl
  | cons hd t ih =>
    have hstep : sortByKey (hd :: t) = insByKey hd (sortByKey t) := rfl
    rw [hstep, ih h.tail]
    cases t with
    | nil => rfl
    | cons h2 t2 =>
      rw [List.chain'_cons] at h
      rw [insByKey_cons, if_pos h.1]

theorem sortByKey_idem (l : List (String × JVal)) :
    sortByKey (sortByKey l) = sortByKey l :=
  sortByKey_eq_of_sorted (sortByKey l) (ksorted_sortByKey l)

theorem mergeLoop_obj (d : List (String × JVal)) (nd : List (String × JVal)) :
    mergeLoop (.obj d) nd = .ok (.obj (mergeList d nd)) := by
  induction nd generalizing d with
  | nil => rfl
  | cons hd rest ih =>
    obtain ⟨k, v⟩ := hd
    by_cases hg : aGet d k = some v
    · simp [mergeLoop, mergeList, hg, ih]
    · simp [mergeLoop, mergeList, hg, ih]

theorem aGet_mergeList (d nd : List (String × JVal)) (j : String) :
    aGet (mergeList d nd) j = oElse (lookupLast nd j) (aGet d j) := by
  induction nd generalizing d with
  | nil => simp [mergeList, lookupLast, oElse]
  | cons hd rest ih =>
    obtain ⟨k, v⟩ := hd
    by_cases hg : aGet d k = some v
    · rw [show mergeList d ((k, v) :: rest) = mergeList d rest from by
        simp [mergeList, hg]]
      rw [ih]
      cases hl : lookupLast rest j with
      | some w => simp [lookupLast, hl, oElse]
      | none =>
        by_cases hk : k = j
        · subst hk
          simp [lookupLast, hl, oElse, hg]
        · simp [lookupLast, hl, oElse, hk]
    · rw [show mergeList d ((k, v) :: rest) = mergeList (aInsert d k v) rest from by
        simp [mergeList, hg]]
      rw [ih]
      cases hl : lookupLast rest j with
      | some w => simp [lookupLast, hl, oElse]
      | none =>
        by_cases hk : k = j
        · subst hk
          simp [lookupLast, hl, oElse, aGet_aInsert_self]
        · simp [lookupLast, hl, oElse, hk,
            aGet_aInsert_ne d k j v (fun he => hk he.symm)]

theorem keysNodup_mergeList (d nd : List (String × JVal)) (h : keysNodup d) :
    keysNodup (mergeList d nd) := by
  induction nd generalizing d with
  | nil => exact h
  | cons hd rest ih =>
    obtain ⟨k, v⟩ := hd
    by_cases hg : aGet d k = some v
    · rw [show mergeList d ((k, v) :: rest) = mergeList d rest from by
        simp [mergeList, hg]]
      exact ih d h
    · rw [show mergeList d ((k, v) :: rest) = mergeList (aInsert d k v) rest from by
        simp [mergeList, hg]]
      exact ih (aInsert d k v) (keysNodup_aInsert d k v h)

theorem mergeList_skip (d nd : List (String × JVal))
    (h : ∀ kv ∈ nd, aGet d kv.1 = some kv.2) : mergeList d nd = d := by
  induction nd with
  | nil => rfl
  | cons hd rest ih =>
    obtain ⟨k, v⟩ := hd
    have h1 : aGet d k = some v := h (k, v) (List.mem_cons_self (k, v) rest)
    rw [show mergeList d ((k, v) :: rest) = mergeList d rest from by
      simp [mergeList, h1]]
    exact ih (fun kv hm => h kv (List.mem_cons_of_mem _ hm))

/-- C1: on a store path whose on-disk document is a JSON object, calling
update_json_if_different twice in a row with the same mapping new_data
produces a store byte-identical to calling it once: the second call finds
every key already present with a deeply equal value (the skip condition
holds for every pair of new_data) and rewrites the same lexicographically
key-sorted document. -/
theorem upsert_idempotent (d nd : List (String × JVal)) (hd : keysNodup d)
    (hnd : keysNodup nd) :
    ∃ fs1 r1 fs2 r2,
      update_json_if_different (FileState.holds (JVal.obj d)) nd = .ok (fs1, r1) ∧
      update_json_if_different fs1 nd = .ok (fs2, r2) ∧
      fs2 = fs1 ∧ storeDump fs2 = storeDump fs1 ∧
      fs1 = FileState.holds (JVal.obj (sortByKey (mergeList d nd))) ∧
      (∀ kv ∈ nd, aGet (sortByKey (mergeList d nd)) kv.1 = some kv.2) := by
  have hndm : keysNodup (mergeList d nd) := keysNodup_mergeList d nd hd
  have hskip : ∀ kv ∈ nd, aGet (sortByKey (mergeList d nd)) kv.1 = some kv.2 := by
    intro kv hkv
    rw [aGet_perm (sortByKey (mergeList d nd)) (mergeList d nd)
      (sortByKey_perm (mergeList d nd)) hndm kv.1]
    rw [aGet_mergeList d nd kv.1]
    rw [lookupLast_of_nodup nd kv.1 kv.2 hnd hkv]
    rfl
  have hcall1 : update_json_if_different (FileState.holds (JVal.obj d)) nd =
      .ok (.holds (.obj (sortByKey (mergeList d nd))), .obj (mergeList d nd)) := by
    simp only [update_json_if_different]
    rw [mergeLoop_obj]
  have hmerge2 : mergeList (sortByKey (mergeList d nd)) nd =
      sortByKey (mergeList d nd) :=
    mergeList_skip (sortByKey (mergeList d nd)) nd hskip
  have hcall2 : update_json_if_different
      (FileState.holds (JVal.obj (sortByKey (mergeList d nd)))) nd =
      .ok (.holds (.obj (sortByKey (mergeList d nd))),
        .obj (sortByKey (mergeList d nd))) := by
    simp only [update_json_if_different]
    rw [mergeLoop_obj, hmerge2]
    show Except.ok (FileState.holds (JVal.obj (sortByKey (sortByKey (mergeList d nd)))),
      JVal.obj (sortByKey (mergeList d nd))) = _
    rw [sortByKey_idem]
  exact ⟨.holds (.obj (sortByKey (mergeList d nd))), .obj (mergeList d nd),
    .holds (.obj (sortByKey (mergeList d nd))), .obj (sortByKey (mergeList d nd)),
    hcall1, hcall2, rfl, rfl, rfl, hskip⟩

/-- Witness for C1 at a concrete store and mapping. -/
theorem upsert_idempotent_witness :
    ∃ fs1 r1 fs2 r2,
      update_json_if_different (FileState.holds (JVal.obj [("b", JVal.num 2)]))
        [("a", JVal.num 1), ("b", JVal.num 3)] = .ok (fs1, r1) ∧
      update_json_if_different fs1 [("a", JVal.num 1), ("b", JVal.num 3)] =
        .ok (fs2, r2) ∧
      fs2 = fs1 ∧ storeDump fs2 = storeDump fs1 ∧
      fs1 = FileState.holds (JVal.obj (sortByKey
        (mergeList [("b", JVal.num 2)] [("a", JVal.num 1), ("b", JVal.num 3)]))) ∧
      (∀ kv ∈ [("a", JVal.num 1), ("b", JVal.num 3)],
        aGet (sortByKey (mergeList [("b", JVal.num 2)]
          [("a", JVal.num 1), ("b", JVal.num 3)])) kv.1 = some kv.2) :=
  upsert_idempotent [("b", JVal.num 2)] [("a", JVal.num 1), ("b", JVal.num 3)]
    (by decide) (by decide)

/-- C2 (code bug): on a path with no existing file, update_json_if_different
creates the file holding the empty JSON list, loads it back as a list, and
the first assignment existing_data[key] = value raises TypeError instead of
merging into an empty object and returning the merged document. -/
theorem upsert_missing_file_fails :
    update_json_if_different FileState.absent [("a", JVal.str "x")] =
      .error "TypeError: list indices must be integers or slices, not str" := by
  decide

theorem select_range_ok (d : List (String × JVal)) (s e : Int)
    (h : ∀ kv ∈ d, (pyInt kv.1).isSome) :
    select_dictionary_range d s e =
      .ok (d.filter (fun kv => keyInRange s e kv.1)) := by
  induction d with
  | nil => rfl
  | cons hd rest ih =>
    obtain ⟨k, v⟩ := hd
    have hk := h (k, v) (List.mem_cons_self (k, v) rest)
    cases hp : pyInt k with
    | none =>
      rw [hp] at hk
      cases hk
    | some n =>
      have hrest := ih (fun kv hm => h kv (List.mem_cons_of_mem _ hm))
      by_cases hin : s ≤ n ∧ n ≤ e
      · simp [select_dictionary_range, hp, hrest, hin, List.filter_cons,
          keyInRange, hin.1, hin.2]
      · have hfr : keyInRange s e k = false := by
          unfold keyInRange
          rw [hp]
          rcases not_and_or.mp hin with h1 | h1
          · simp [h1]
          · simp [h1]
        simp [select_dictionary_range, hp, hrest, hin, hfr, List.filter_cons]

theorem select_range_err (d : List (String × JVal)) (s e : Int)
    (h : ∃ kv ∈ d, pyInt kv.1 = none) :
    ∃ msg, select_dictionary_range d s e = .error msg := by
  induction d with
  | nil =>
    obtain ⟨kv, hm, _⟩ := h
    cases hm
  | cons hd rest ih =>
    obtain ⟨k, v⟩ := hd
    cases hp : pyInt k with
    | none =>
      exact ⟨"ValueError: invalid literal for int() with base 10: " ++ k,
        by simp [select_dictionary_range, hp]⟩
    | some n =>
      obtain ⟨kv, hm, hkv⟩ := h
      rcases List.mem_cons.mp hm with hm | hm
      · rw [hm] at hkv
        rw [hkv] at hp
        cases hp
      · obtain ⟨msg, hmsg⟩ := ih ⟨kv, hm, hkv⟩
        exact ⟨msg, by simp [select_dictionary_range, hp, hmsg]⟩

/-- C5: on a mapping whose keys all parse as integers,
select_dictionary_range returns exactly the sub-mapping with start <= key
<= end inclusive; on a mapping with any unparseable key it fails with an
immediately surfaced error. -/
theorem select_range_spec (d : List (String × JVal)) (s e : Int) :
    ((∀ kv ∈ d, (pyInt kv.1).isSome) →
      select_dictionary_range d s e =
        .ok (d.filter (fun kv => keyInRange s e kv.1))) ∧
    ((∃ kv ∈ d, pyInt kv.1 = none) →
      ∃ msg, select_dictionary_range d s e = .error msg) :=
  ⟨select_range_ok d s e, select_range_err d s e⟩

/-- Witness for C5 at the documented example: pages 1, 5, 16 with range
1..5 keep exactly pages 1 and 5, and a rule-number key fails. -/
theorem select_range_spec_witness :
    select_dictionary_range
      [("1", JVal.str "p1"), ("5", JVal.str "p5"), ("16", JVal.str "p16")] 1 5 =
      .ok [("1", JVal.str "p1"), ("5", JVal.str "p5")] ∧
    (∃ msg, select_dictionary_range [("V.1", JVal.null)] 1 5 = .error msg) := by
  constructor
  · have h := (select_range_spec
      [("1", JVal.str "p1"), ("5", JVal.str "p5"), ("16", JVal.str "p16")] 1 5).1
      (by decide)
    rw [h]
    decide
  · exact (select_range_spec [("V.1", JVal.null)] 1 5).2
      ⟨("V.1", JVal.null), by decide, by decide⟩

/-- C8 counterexample: the coercion applied to the string "3" returns the
JSON number 3, not a mapping, refuting the claim that it returns a mapping
for every input value. -/
theorem jsonCoerce_not_mapping_counterexample :
    jsonCoerce (JVal.str "3") = JVal.num 3 ∧ (JVal.num 3).isObj = false :=
  ⟨by decide, rfl⟩

/-- C8 amended: the coercion never raises; a mapping is returned unchanged,
a string parsing to a JSON mapping yields that mapping, an unparseable
string yields the empty mapping, and any other value (a string parsing to a
non-mapping, or a non-string non-mapping) is returned as is, which need not
be a mapping. -/
theorem jsonCoerce_spec :
    (∀ d : List (String × JVal), jsonCoerce (JVal.obj d) = JVal.obj d) ∧
    (∀ s w, parseJson s = some w → jsonCoerce (JVal.str s) = w) ∧
    (∀ s, parseJson s = none → jsonCoerce (JVal.str s) = JVal.obj []) ∧
    (∀ v : JVal, (∀ s, v ≠ JVal.str s) → jsonCoerce v = v) := by
  refine ⟨fun d => rfl, fun s w h => ?_, fun s h => ?_, fun v hv => ?_⟩
  · simp [jsonCoerce, h]
  · simp [jsonCoerce, h]
  · cases v with
    | str s => exact absurd rfl (hv s)
    | null => rfl
    | bool b => rfl
    | num n => rfl
    | arr l => rfl
    | obj d => rfl

/-- Witness for C8 at the documented examples: a JSON-object string parses
to its mapping and an unparseable string coerces to the empty mapping. -/
theorem jsonCoerce_spec_witness :
    jsonCoerce (JVal.str "\x7b\"a\": 1\x7d") = JVal.obj [("a", JVal.num 1)] ∧
    jsonCoerce (JVal.str "not json") = JVal.obj [] :=
  ⟨jsonCoerce_spec.2.1 "\x7b\"a\": 1\x7d" (JVal.obj [("a", JVal.num 1)]) (by decide),
   jsonCoerce_spec.2.2.1 "not json" (by decide)⟩

theorem add_rule_ok (d : List (String × JVal)) (rn : JVal)
    (h : ∀ kv ∈ d, kv.2.isObj = true) :
    add_rule_number_to_measurements d rn =
      .ok (d.map (fun kv => (kv.1, addRuleField kv.2 rn))) := by
  induction d with
  | nil => rfl
  | cons hd rest ih =>
    obtain ⟨k, v⟩ := hd
    have hv := h (k, v) (List.mem_cons_self (k, v) rest)
    cases v with
    | obj vd =>
      have hrest := ih (fun kv hm => h kv (List.mem_cons_of_mem _ hm))
      simp [add_rule_number_to_measurements, hrest, addRuleField]
    | null => simp [JVal.isObj] at hv
    | bool b => simp [JVal.isObj] at hv
    | num n => simp [JVal.isObj] at hv
    | str s => simp [JVal.isObj] at hv
    | arr l => simp [JVal.isObj] at hv

/-- C9: on a measurements mapping whose entries are objects (of any shape,
no further validation), add_rule_number_to_measurements returns a mapping
with the same keys in which every entry carries rule# equal to the owning
rule number and every other field of every entry is unchanged. -/
theorem add_rule_number_spec (d : List (String × JVal)) (rn : JVal)
    (h : ∀ kv ∈ d, kv.2.isObj = true) :
    (add_rule_number_to_measurements d rn =
      .ok (d.map (fun kv => (kv.1, addRuleField kv.2 rn)))) ∧
    ((d.map (fun kv => (kv.1, addRuleField kv.2 rn))).map Prod.fst =
      d.map Prod.fst) ∧
    (∀ vd : List (String × JVal),
      aGet (aInsert vd "rule#" rn) "rule#" = some rn ∧
      ∀ f, f ≠ "rule#" → aGet (aInsert vd "rule#" rn) f = aGet vd f) := by
  refine ⟨add_rule_ok d rn h, ?_, ?_⟩
  · rw [List.map_map]
    rfl
  · intro vd
    exact ⟨aGet_aInsert_self vd "rule#" rn,
      fun f hf => aGet_aInsert_ne vd "rule#" f rn hf⟩

/-- Witness for C9 at a concrete measurements mapping including an entry of
unexpected shape (an empty object), which passes through with only rule#
added. -/
theorem add_rule_number_spec_witness :
    (add_rule_number_to_measurements
      [("parameter1", JVal.obj [("type", JVal.str "force")]), ("weird", JVal.obj [])]
      (JVal.str "V.1.2") =
      .ok ([("parameter1", JVal.obj [("type", JVal.str "force")]),
        ("weird", JVal.obj [])].map
        (fun kv => (kv.1, addRuleField kv.2 (JVal.str "V.1.2"))))) ∧
    (([("parameter1", JVal.obj [("type", JVal.str "force")]),
        ("weird", JVal.obj [])].map
        (fun kv => (kv.1, addRuleField kv.2 (JVal.str "V.1.2")))).map Prod.fst =
      [("parameter1", JVal.obj [("type", JVal.str "force")]),
        ("weird", JVal.obj [])].map Prod.fst) ∧
    (∀ vd : List (String × JVal),
      aGet (aInsert vd "rule#" (JVal.str "V.1.2")) "rule#" =
        some (JVal.str "V.1.2") ∧
      ∀ f, f ≠ "rule#" →
        aGet (aInsert vd "rule#" (JVal.str "V.1.2")) f = aGet vd f) :=
  add_rule_number_spec
    [("parameter1", JVal.obj [("type", JVal.str "force")]), ("weird", JVal.obj [])]
    (JVal.str "V.1.2") (by decide)

theorem flattenPages_ok (data : List (String × JVal)) (acc : List (String × JVal))
    (h : ∀ kv ∈ data, flattenPageWF kv.2 = true) :
    flattenPages acc data =
      .ok ((flatTraversal data).foldl (fun a kv => aInsert a kv.1 kv.2) acc) := by
  induction data generalizing acc with
  | nil => rfl
  | cons hd rest ih =>
    obtain ⟨page, rules⟩ := hd
    have hv := h (page, rules) (List.mem_cons_self (page, rules) rest)
    have hr : ∀ kv ∈ rest, flattenPageWF kv.2 = true :=
      fun kv hm => h kv (List.mem_cons_of_mem _ hm)
    cases rules with
    | obj rd =>
      simp [flattenPages, flatTraversal, pageRules, List.foldl_append, ih _ hr,
        List.flatMap_cons]
    | str s =>
      cases hp : parseJson s with
      | none =>
        simp [flattenPages, flatTraversal, pageRules, hp, ih _ hr,
          List.flatMap_cons]
      | some w =>
        cases w with
        | obj rd =>
          simp [flattenPages, flatTraversal, pageRules, hp, List.foldl_append,
            ih _ hr, List.flatMap_cons]
        | null => simp [flattenPageWF, hp] at hv
        | bool b => simp [flattenPageWF, hp] at hv
        | num n => simp [flattenPageWF, hp] at hv
        | str s2 => simp [flattenPageWF, hp] at hv
        | arr l => simp [flattenPageWF, hp] at hv
    | null => simp [flattenPageWF] at hv
    | bool b => simp [flattenPageWF] at hv
    | num n => simp [flattenPageWF] at hv
    | arr l => simp [flattenPageWF] at hv

/-- C6: on a page-keyed document (objects, or strings coerced by JSON
parsing with unparseable pages skipped), flatten_json succeeds and builds
the mapping whose value at each rule number is the record at the LAST
occurrence of that rule number in traversal order: pages in insertion
order, rules within a page in insertion order (last-writer-wins). -/
theorem flatten_json_spec (data : List (String × JVal))
    (h : ∀ kv ∈ data, flattenPageWF kv.2 = true) :
    ∃ out, flatten_json data = .ok out ∧
      ∀ r, aGet out r = lookupLast (flatTraversal data) r := by
  refine ⟨(flatTraversal data).foldl (fun a kv => aInsert a kv.1 kv.2) [], ?_, ?_⟩
  · exact flattenPages_ok data [] h
  · intro r
    rw [aGet_foldl_aInsert]
    cases hl : lookupLast (flatTraversal data) r <;> simp [oElse, aGet]

/-- Witness for C6 at a concrete document where rule V.1 occurs on page 1
(an object) and again on page 2 (a string-encoded page): the record of the
later page survives. -/
theorem flatten_json_spec_witness :
    (∃ out, flatten_json
      [("1", JVal.obj [("V.1", JVal.str "first"), ("V.2", JVal.str "keep")]),
       ("2", JVal.str "\x7b\"V.1\": \"second\"\x7d")] = .ok out ∧
      ∀ r, aGet out r = lookupLast (flatTraversal
        [("1", JVal.obj [("V.1", JVal.str "first"), ("V.2", JVal.str "keep")]),
         ("2", JVal.str "\x7b\"V.1\": \"second\"\x7d")]) r) ∧
    lookupLast (flatTraversal
      [("1", JVal.obj [("V.1", JVal.str "first"), ("V.2", JVal.str "keep")]),
       ("2", JVal.str "\x7b\"V.1\": \"second\"\x7d")]) "V.1" =
      some (JVal.str "second") :=
  ⟨flatten_json_spec _ (by decide), by decide⟩

theorem ruleNumbersLoop_ok (data : List (String × JVal)) (rns : List JVal)
    (q : String) (h : ∀ kv ∈ data, qaEntryWF kv.2 = true) :
    ruleNumbersLoop rns q data = .ok (rns ++ collectMatches data q) := by
  induction data generalizing rns with
  | nil => simp [ruleNumbersLoop, collectMatches]
  | cons hd rest ih =>
    obtain ⟨k, v⟩ := hd
    have hv := h (k, v) (List.mem_cons_self (k, v) rest)
    have hr : ∀ kv ∈ rest, qaEntryWF kv.2 = true :=
      fun kv hm => h kv (List.mem_cons_of_mem _ hm)
    cases v with
    | obj vd =>
      have hts : qaTermsWF vd = true := by simpa [qaEntryWF] using hv
      cases htf : (aGet vd "terms").getD (.obj []) with
      | obj td =>
        simp [ruleNumbersLoop, htf, ih _ hr, entryMatches, collectMatches,
          List.flatMap_cons, List.append_assoc]
      | str ts =>
        cases hp2 : parseJson ts with
        | none =>
          simp [ruleNumbersLoop, htf, hp2, ih _ hr, entryMatches,
            collectMatches, List.flatMap_cons]
        | some w =>
          cases w with
          | obj td =>
            simp [ruleNumbersLoop, htf, hp2, ih _ hr, entryMatches,
              collectMatches, List.flatMap_cons, List.append_assoc]
          | null => simp [qaTermsWF, htf, hp2] at hts
          | bool b => simp [qaTermsWF, htf, hp2] at hts
          | num n => simp [qaTermsWF, htf, hp2] at hts
          | str s2 => simp [qaTermsWF, htf, hp2] at hts
          | arr l => simp [qaTermsWF, htf, hp2] at hts
      | null => simp [qaTermsWF, htf] at hts
      | bool b => simp [qaTermsWF, htf] at hts
      | num n => simp [qaTermsWF, htf] at hts
      | arr l => simp [qaTermsWF, htf] at hts
    | str s =>
      cases hp : parseJson s with
      | none =>
        simp [ruleNumbersLoop, hp, ih _ hr, entryMatches, collectMatches,
          List.flatMap_cons]
      | some w =>
        cases w with
        | obj vd =>
          have hts : qaTermsWF vd = true := by simpa [qaEntryWF, hp] using hv
          cases htf : (aGet vd "terms").getD (.obj []) with
          | obj td =>
            simp [ruleNumbersLoop, hp, htf, ih _ hr, entryMatches,
              collectMatches, List.flatMap_cons, List.append_assoc]
          | str ts =>
            cases hp2 : parseJson ts with
            | none =>
              simp [ruleNumbersLoop, hp, htf, hp2, ih _ hr, entryMatches,
                collectMatches, List.flatMap_cons]
            | some w2 =>
              cases w2 with
              | obj td =>
                simp [ruleNumbersLoop, hp, htf, hp2, ih _ hr, entryMatches,
                  collectMatches, List.flatMap_cons, List.append_assoc]
              | null => simp [qaTermsWF, htf, hp2] at hts
              | bool b => simp [qaTermsWF, htf, hp2] at hts
              | num n => simp [qaTermsWF, htf, hp2] at hts
              | str s3 => simp [qaTermsWF, htf, hp2] at hts
              | arr l => simp [qaTermsWF, htf, hp2] at hts
          | null => simp [qaTermsWF, htf] at hts
          | bool b => simp [qaTermsWF, htf] at hts
          | num n => simp [qaTermsWF, htf] at hts
          | arr l => simp [qaTermsWF, htf] at hts
        | null => simp [qaEntryWF, hp] at hv
        | bool b => simp [qaEntryWF, hp] at hv
        | num n => simp [qaEntryWF, hp] at hv
        | str s2 => simp [qaEntryWF, hp] at hv
        | arr l => simp [qaEntryWF, hp] at hv
    | null => simp [qaEntryWF] at hv
    | bool b => simp [qaEntryWF] at hv
    | num n => simp [qaEntryWF] at hv
    | arr l => simp [qaEntryWF] at hv

/-- C7: extract_information with mode definition returns the stored
definition exactly when the key is present with a non-empty definition, and
a descriptive not-found message (never an exception) when the key is absent
or its definition is empty; with mode rule_numbers, on a well-formed
document it returns the owning rules of every term key matching the query
case-insensitively, or a descriptive not-found message (never an exception)
when no match exists. -/
theorem extract_information_spec (data : List (String × JVal)) (q : String) :
    (∀ vd s, aGet data q = some (JVal.obj vd) →
      aGet vd "definition" = some (JVal.str s) → s ≠ "" →
      extract_information data q "definition" = .ok (JVal.str s)) ∧
    (aGet data q = none →
      extract_information data q "definition" =
        .ok (JVal.str (keyNotFoundMsg q))) ∧
    (∀ vd, aGet data q = some (JVal.obj vd) →
      jTruthy ((aGet vd "definition").getD (JVal.str "")) = false →
      extract_information data q "definition" = .ok (JVal.str (noDefMsg q))) ∧
    ((∀ kv ∈ data, qaEntryWF kv.2 = true) →
      extract_information data q "rule_numbers" =
        .ok (if (collectMatches data q).isEmpty
          then JVal.str (termNotFoundMsg q)
          else JVal.arr (collectMatches data q))) := by
  refine ⟨?_, ?_, ?_, ?_⟩
  · intro vd s hvd hdef hne
    simp [extract_information, hvd, hdef, jTruthy, hne]
  · intro hnone
    simp [extract_information, hnone]
  · intro vd hvd hfal
    simp [extract_information, hvd, hfal]
  · intro h
    simp only [extract_information]
    rw [ruleNumbersLoop_ok data [] q h]
    simp only [List.nil_append, List.isEmpty_iff]
    by_cases hc : collectMatches data q = [] <;> simp [hc]

/-- Witness for C7 at the documented examples: the definition of V.1.2 is
returned exactly, and the query rollover stability matches the term key
Rollover Stability case-insensitively, returning its owning rule V.1.3. -/
theorem extract_information_spec_witness :
    extract_information qaExampleDoc "V.1.2" "definition" =
      .ok (JVal.str "Wheelbase minimum 1525 mm") ∧
    extract_information qaExampleDoc "rollover stability" "rule_numbers" =
      .ok (JVal.arr [JVal.str "V.1.3"]) := by
  constructor
  · exact (extract_information_spec qaExampleDoc "V.1.2").1
      [("definition", JVal.str "Wheelbase minimum 1525 mm")]
      "Wheelbase minimum 1525 mm" (by decide) (by decide) (by decide)
  · have h := (extract_information_spec qaExampleDoc "rollover stability").2.2.2
      (by decide)
    rw [h]
    decide

theorem processRecord_ok (acc : List (String × TermRec)) (page : String)
    (kd : JVal) (h : recordWF kd = true) :
    processRecord acc page kd = .ok ((recordTrips page kd).foldl stepTrip acc) := by
  cases kd with
  | obj d =>
    cases htf : (aGet d "terms").getD (.obj []) with
    | obj ts =>
      simp [processRecord, htf, recordTrips, stepTrip, List.foldl_map]
    | str s => simp [recordWF, htf] at h
    | null => simp [recordWF, htf] at h
    | bool b => simp [recordWF, htf] at h
    | num n => simp [recordWF, htf] at h
    | arr l => simp [recordWF, htf] at h
  | null => simp [recordWF] at h
  | bool b => simp [recordWF] at h
  | num n => simp [recordWF] at h
  | str s => simp [recordWF] at h
  | arr l => simp [recordWF] at h

theorem foldRecords_ok (ks : List (String × JVal)) (acc : List (String × TermRec))
    (page : String) (h : ∀ kv ∈ ks, recordWF kv.2 = true) :
    foldRecords acc page ks =
      .ok ((ks.flatMap (fun kv => recordTrips page kv.2)).foldl stepTrip acc) := by
  induction ks generalizing acc with
  | nil => rfl
  | cons hd rest ih =>
    obtain ⟨k, kd⟩ := hd
    have hk := h (k, kd) (List.mem_cons_self (k, kd) rest)
    have hr : ∀ kv ∈ rest, recordWF kv.2 = true :=
      fun kv hm => h kv (List.mem_cons_of_mem _ hm)
    simp [foldRecords, processRecord_ok acc page kd hk, ih _ hr,
      List.flatMap_cons, List.foldl_append]

theorem processPage_ok (v : JVal) (acc : List (String × TermRec)) (page : String)
    (h : pageWF v = true) :
    processPage acc page v = .ok ((pageTrips page v).foldl stepTrip acc) := by
  cases v with
  | obj ks =>
    have hks : ∀ x ∈ ks, recordWF x.2 = true := by
      simpa only [pageWF, List.all_eq_true] using h
    simp [processPage, processKeys, pageTrips, foldRecords_ok ks acc page hks]
  | str s =>
    cases hp : parseJson s with
    | none => simp [processPage, hp, pageTrips]
    | some w =>
      cases w with
      | obj ks =>
        have hks : ∀ x ∈ ks, recordWF x.2 = true := by
          simpa only [pageWF, hp, List.all_eq_true] using h
        simp [processPage, hp, processKeys, pageTrips,
          foldRecords_ok ks acc page hks]
      | null => simp [pageWF, hp] at h
      | bool b => simp [pageWF, hp] at h
      | num n => simp [pageWF, hp] at h
      | str s2 => simp [pageWF, hp] at h
      | arr l => simp [pageWF, hp] at h
  | null => simp [pageWF] at h
  | bool b => simp [pageWF] at h
  | num n => simp [pageWF] at h
  | arr l => simp [pageWF] at h

theorem aggPages_ok (data : List (String × JVal)) (acc : List (String × TermRec))
    (h : docWF data = true) :
    aggPages acc data = .ok ((docTrips data).foldl stepTrip acc) := by
  induction data generalizing acc with
  | nil => rfl
  | cons hd rest ih =>
    obtain ⟨page, keys⟩ := hd
    have h2 : ∀ x ∈ (page, keys) :: rest, pageWF x.2 = true := by
      simpa only [docWF, List.all_eq_true] using h
    have hpage : pageWF keys = true :=
      h2 (page, keys) (List.mem_cons_self (page, keys) rest)
    have hrest : docWF rest = true := by
      simp only [docWF, List.all_eq_true]
      intro kv hm
      exact h2 kv (List.mem_cons_of_mem _ hm)
    simp [aggPages, processPage_ok keys acc page hpage, ih _ hrest,
      docTrips, List.flatMap_cons, List.foldl_append]

theorem aggregateTerms_ok (data : List (String × JVal)) (h : docWF data = true) :
    aggregateTerms data = .ok ((docTrips data).foldl stepTrip []) :=
  aggPages_ok data [] h

theorem stepTrip_eq (acc : List (String × TermRec)) (tr : Trip) :
    stepTrip acc tr =
      aInsert acc tr.term (applyTrip ((aGet acc tr.term).getD newTermRec) tr) :=
  rfl

theorem keysNodup_foldl_stepTrip (trips : List Trip)
    (acc : List (String × TermRec)) (h : keysNodup acc) :
    keysNodup (trips.foldl stepTrip acc) := by
  induction trips generalizing acc with
  | nil => exact h
  | cons tr rest ih =>
    rw [List.foldl_cons, stepTrip_eq]
    exact ih _ (keysNodup_aInsert acc tr.term _ h)

theorem aGet_foldl_stepTrip (trips : List Trip) (acc : List (String × TermRec))
    (t : String) :
    aGet (trips.foldl stepTrip acc) t =
      (if (trips.filter (fun tr => tr.term == t)).isEmpty then aGet acc t
       else some ((trips.filter (fun tr => tr.term == t)).foldl applyTrip
         ((aGet acc t).getD newTermRec))) := by
  induction trips generalizing acc with
  | nil => simp
  | cons tr rest ih =>
    rw [List.foldl_cons, ih]
    by_cases ht : tr.term = t
    · subst ht
      have hself : aGet (stepTrip acc tr) tr.term =
          some (applyTrip ((aGet acc tr.term).getD newTermRec) tr) := by
        rw [stepTrip_eq]
        exact aGet_aInsert_self acc tr.term _
      rw [hself]
      rw [List.filter_cons]
      simp only [beq_self_eq_true, if_pos]
      cases hfe : (rest.filter (fun tr2 => tr2.term == tr.term)) with
      | nil => simp [List.foldl_cons]
      | cons f fs => simp [List.foldl_cons]
    · have hne : aGet (stepTrip acc tr) t = aGet acc t := by
        rw [stepTrip_eq]
        exact aGet_aInsert_ne acc tr.term t _ (fun he => ht he.symm)
      rw [hne]
      rw [List.filter_cons]
      have hbe : (tr.term == t) = false := by
        rw [beq_eq_false_iff_ne]
        exact ht
      rw [hbe]
      simp

theorem mem_setAdd (l : List JVal) (x y : JVal) :
    y ∈ setAdd l x ↔ y ∈ l ∨ y = x := by
  unfold setAdd
  by_cases hx : x ∈ l
  · simp only [if_pos hx]
    constructor
    · exact Or.inl
    · intro hc
      rcases hc with hc | hc
      · exact hc
      · rw [hc]
        exact hx
  · simp [if_neg hx]

theorem nodup_setAdd (l : List JVal) (x : JVal) (h : l.Nodup) :
    (setAdd l x).Nodup := by
  unfold setAdd
  by_cases hx : x ∈ l
  · simp only [if_pos hx]
    exact h
  · rw [if_neg hx, List.nodup_append]
    refine ⟨h, List.nodup_singleton x, ?_⟩
    intro a ha hb
    rw [List.mem_singleton] at hb
    subst hb
    exact hx ha

theorem foldl_applyTrip_rule (ts : List Trip) (c : TermRec) :
    (ts.foldl applyTrip c).rule_number =
      ts.foldl (fun l tr => setAdd l tr.rule) c.rule_number := by
  induction ts generalizing c with
  | nil => rfl
  | cons tr rest ih => simp [List.foldl_cons, applyTrip, ih]

theorem foldl_applyTrip_defn (ts : List Trip) (c : TermRec) :
    (ts.foldl applyTrip c).definition =
      ts.foldl (fun s tr => if jTruthy s then s else tr.defn) c.definition := by
  induction ts generalizing c with
  | nil => rfl
  | cons tr rest ih => simp [List.foldl_cons, applyTrip, ih]

theorem nodup_foldl_setAdd (ts : List Trip) (l0 : List JVal) (h : l0.Nodup) :
    (ts.foldl (fun l tr => setAdd l tr.rule) l0).Nodup := by
  induction ts generalizing l0 with
  | nil => exact h
  | cons tr rest ih =>
    rw [List.foldl_cons]
    exact ih _ (nodup_setAdd l0 tr.rule h)

theorem mem_foldl_setAdd (ts : List Trip) (l0 : List JVal) (r : JVal) :
    r ∈ ts.foldl (fun l tr => setAdd l tr.rule) l0 ↔
      r ∈ l0 ∨ r ∈ ts.map (fun tr => tr.rule) := by
  induction ts generalizing l0 with
  | nil => simp
  | cons tr rest ih =>
    rw [List.foldl_cons, ih, mem_setAdd]
    simp only [List.map_cons, List.mem_cons]
    tauto

/-- C3: on a well-formed rule-keyed document, the aggregated record of a
term t that occurs in at least one rule record has a duplicate-free
rule_number set holding exactly the owning rule numbers attached to t over
the whole traversal (so n distinct owning rules give exactly those n
entries); a term with no occurrence has no record. -/
theorem aggregate_rule_numbers (data : List (String × JVal)) (t : String)
    (h : docWF data = true) :
    ∃ acc, aggregateTerms data = .ok acc ∧
      ((ownersOf (docTrips data) t = [] ∧ aGet acc t = none) ∨
       (∃ trec, aGet acc t = some trec ∧ trec.rule_number.Nodup ∧
         (∀ r, r ∈ trec.rule_number ↔ r ∈ ownersOf (docTrips data) t) ∧
         trec.rule_number.length = (ownersOf (docTrips data) t).dedup.length)) := by
  refine ⟨(docTrips data).foldl stepTrip [], aggregateTerms_ok data h, ?_⟩
  rw [aGet_foldl_stepTrip]
  cases hfe : ((docTrips data).filter (fun tr => tr.term == t)) with
  | nil =>
    left
    constructor
    · rw [ownersOf, hfe]
      rfl
    · simp [aGet]
  | cons f fs =>
    right
    refine ⟨(f :: fs).foldl applyTrip newTermRec, by simp [hfe, aGet], ?_, ?_, ?_⟩
    · rw [foldl_applyTrip_rule]
      exact nodup_foldl_setAdd (f :: fs) [] List.nodup_nil
    · intro r
      rw [foldl_applyTrip_rule, mem_foldl_setAdd, ownersOf, hfe]
      simp [newTermRec]
    · have hnd1 : ((f :: fs).foldl applyTrip newTermRec).rule_number.Nodup := by
        rw [foldl_applyTrip_rule]
        exact nodup_foldl_setAdd (f :: fs) [] List.nodup_nil
      have hnd2 : (ownersOf (docTrips data) t).dedup.Nodup := List.nodup_dedup _
      have hiff : ∀ r, r ∈ ((f :: fs).foldl applyTrip newTermRec).rule_number ↔
          r ∈ (ownersOf (docTrips data) t).dedup := by
        intro r
        rw [List.mem_dedup, foldl_applyTrip_rule, mem_foldl_setAdd, ownersOf, hfe]
        simp [newTermRec]
      exact ((List.perm_ext_iff_of_nodup hnd1 hnd2).mpr hiff).length_eq

theorem foldl_defn_keep (ds : List JVal) (s : JVal) (h : jTruthy s = true) :
    ds.foldl (fun s2 d => if jTruthy s2 then s2 else d) s = s := by
  induction ds with
  | nil => rfl
  | cons d rest ih => simp [List.foldl_cons, h, ih]

theorem foldl_defn_first (ds : List JVal) (s : JVal) (d0 : JVal)
    (hs : jTruthy s = false) (hf : ds.find? jTruthy = some d0) :
    ds.foldl (fun s2 d => if jTruthy s2 then s2 else d) s = d0 := by
  induction ds generalizing s with
  | nil => cases hf
  | cons d rest ih =>
    by_cases hd : jTruthy d = true
    · rw [List.find?_cons_of_pos _ hd] at hf
      injection hf with hf2
      subst hf2
      rw [List.foldl_cons]
      simp only [hs, Bool.false_eq_true, if_neg, ite_false]
      exact foldl_defn_keep rest d hd
    · have hd2 : jTruthy d = false := by simpa using hd
      rw [List.find?_cons_of_neg _ hd] at hf
      rw [List.foldl_cons]
      simp only [hs, Bool.false_eq_true, if_neg, ite_false]
      exact ih d hd2 hf

/-- C4: on a well-formed rule-keyed document, the definition stored in the
aggregated record of a term t equals the FIRST truthy (non-empty)
definition attached to t in traversal order; once recorded it is never
overwritten by a later one. -/
theorem aggregate_first_definition (data : List (String × JVal)) (t : String)
    (d0 : JVal) (h : docWF data = true)
    (hf : (defsOf (docTrips data) t).find? jTruthy = some d0) :
    ∃ acc trec, aggregateTerms data = .ok acc ∧ aGet acc t = some trec ∧
      trec.definition = d0 := by
  cases hfe : (docTrips data).filter (fun tr => tr.term == t) with
  | nil =>
    exfalso
    rw [defsOf, hfe] at hf
    cases hf
  | cons f fs =>
    refine ⟨(docTrips data).foldl stepTrip [],
      (f :: fs).foldl applyTrip newTermRec, aggregateTerms_ok data h, ?_, ?_⟩
    · rw [aGet_foldl_stepTrip]
      simp [hfe, aGet]
    · rw [foldl_applyTrip_defn]
      have hm : (f :: fs).foldl (fun s tr => if jTruthy s then s else tr.defn)
          newTermRec.definition =
          ((f :: fs).map (fun tr => tr.defn)).foldl
            (fun s d => if jTruthy s then s else d) newTermRec.definition := by
        rw [List.foldl_map]
      rw [hm]
      apply foldl_defn_first
      · decide
      · rw [defsOf, hfe] at hf
        exact hf

/-- Witness for C4 at a concrete document where the first occurrence of
term Wheelbase carries an empty definition, the second a non-empty one, and
a third a different non-empty one: the second (first non-empty) is kept. -/
theorem aggregate_first_definition_witness :
    ∃ acc trec,
      aggregateTerms [("1", JVal.obj
        [("V.0", JVal.obj [("definition", JVal.str ""),
           ("terms", JVal.obj [("Wheelbase", JVal.str "V.0")])]),
         ("V.1", JVal.obj [("definition", JVal.str "real def"),
           ("terms", JVal.obj [("Wheelbase", JVal.str "V.1")])]),
         ("V.2", JVal.obj [("definition", JVal.str "later def"),
           ("terms", JVal.obj [("Wheelbase", JVal.str "V.2")])])])] = .ok acc ∧
      aGet acc "Wheelbase" = some trec ∧ trec.definition = JVal.str "real def" :=
  aggregate_first_definition _ "Wheelbase" (JVal.str "real def")
    (by decide) (by decide)

/-- Witness for C3 at a concrete document where term Coolant occurs in two
distinct rule records with two distinct owning rules. -/
theorem aggregate_rule_numbers_witness :
    ∃ acc,
      aggregateTerms [("1", JVal.obj
        [("V.1", JVal.obj [("definition", JVal.str "d1"),
           ("terms", JVal.obj [("Coolant", JVal.str "V.1")])]),
         ("V.2", JVal.obj [("definition", JVal.str "d2"),
           ("terms", JVal.obj [("Coolant", JVal.str "V.2")])])])] = .ok acc ∧
      ((ownersOf (docTrips [("1", JVal.obj
        [("V.1", JVal.obj [("definition", JVal.str "d1"),
           ("terms", JVal.obj [("Coolant", JVal.str "V.1")])]),
         ("V.2", JVal.obj [("definition", JVal.str "d2"),
           ("terms", JVal.obj [("Coolant", JVal.str "V.2")])])])]) "Coolant" = [] ∧
        aGet acc "Coolant" = none) ∨
       (∃ trec, aGet acc "Coolant" = some trec ∧ trec.rule_number.Nodup ∧
         (∀ r, r ∈ trec.rule_number ↔ r ∈ ownersOf (docTrips [("1", JVal.obj
        [("V.1", JVal.obj [("definition", JVal.str "d1"),
           ("terms", JVal.obj [("Coolant", JVal.str "V.1")])]),
         ("V.2", JVal.obj [("definition", JVal.str "d2"),
           ("terms", JVal.obj [("Coolant", JVal.str "V.2")])])])]) "Coolant") ∧
         trec.rule_number.length = (ownersOf (docTrips [("1", JVal.obj
        [("V.1", JVal.obj [("definition", JVal.str "d1"),
           ("terms", JVal.obj [("Coolant", JVal.str "V.1")])]),
         ("V.2", JVal.obj [("definition", JVal.str "d2"),
           ("terms", JVal.obj [("Coolant", JVal.str "V.2")])])])]) "Coolant").dedup.length)) :=
  aggregate_rule_numbers _ "Coolant" (by decide)

theorem step5Records_ok_exists (ks : List (String × JVal))
    (fd : List (String × JVal)) (h : ∀ kv ∈ ks, recordWF kv.2 = true) :
    ∃ fd2, step5Records fd ks = .ok fd2 := by
  induction ks generalizing fd with
  | nil => exact ⟨fd, rfl⟩
  | cons hd rest ih =>
    obtain ⟨k, v⟩ := hd
    have hk := h (k, v) (List.mem_cons_self (k, v) rest)
    cases v with
    | obj vd =>
      obtain ⟨fd2, hfd2⟩ := ih (aInsert fd k (JVal.obj
        [("rule_number", (aGet vd "rule_number").getD (.str "")),
         ("definition", (aGet vd "definition").getD (.str "")),
         ("terms", (aGet vd "terms").getD (.obj [])),
         ("measurements", .obj [])]))
        (fun kv hm => h kv (List.mem_cons_of_mem _ hm))
      exact ⟨fd2, by simp [step5Records, flattenRecordEntry, hfd2]⟩
    | null => simp [recordWF] at hk
    | bool b => simp [recordWF] at hk
    | num n => simp [recordWF] at hk
    | str s => simp [recordWF] at hk
    | arr l => simp [recordWF] at hk

theorem step5Pages_ok_exists (data : List (String × JVal))
    (fd : List (String × JVal)) (h : ∀ x ∈ data, pageWF x.2 = true) :
    ∃ fd2, step5Pages fd data = .ok fd2 := by
  induction data generalizing fd with
  | nil => exact ⟨fd, rfl⟩
  | cons hd rest ih =>
    obtain ⟨page, keys⟩ := hd
    have hpage := h (page, keys) (List.mem_cons_self (page, keys) rest)
    have hr : ∀ x ∈ rest, pageWF x.2 = true :=
      fun kv hm => h kv (List.mem_cons_of_mem _ hm)
    cases keys with
    | obj ks =>
      have hks : ∀ x ∈ ks, recordWF x.2 = true := by
        simpa only [pageWF, List.all_eq_true] using hpage
      obtain ⟨fdm, hfdm⟩ := step5Records_ok_exists ks fd hks
      obtain ⟨fd2, hfd2⟩ := ih fdm hr
      exact ⟨fd2, by simp [step5Pages, hfdm, hfd2]⟩
    | str s =>
      cases hp : parseJson s with
      | none =>
        obtain ⟨fd2, hfd2⟩ := ih fd hr
        exact ⟨fd2, by simp [step5Pages, hp, hfd2]⟩
      | some w =>
        cases w with
        | obj ks =>
          have hks : ∀ x ∈ ks, recordWF x.2 = true := by
            simpa only [pageWF, hp, List.all_eq_true] using hpage
          obtain ⟨fdm, hfdm⟩ := step5Records_ok_exists ks fd hks
          obtain ⟨fd2, hfd2⟩ := ih fdm hr
          exact ⟨fd2, by simp [step5Pages, hp, hfdm, hfd2]⟩
        | null => simp [pageWF, hp] at hpage
        | bool b => simp [pageWF, hp] at hpage
        | num n => simp [pageWF, hp] at hpage
        | str s2 => simp [pageWF, hp] at hpage
        | arr l => simp [pageWF, hp] at hpage
    | null => simp [pageWF] at hpage
    | bool b => simp [pageWF] at hpage
    | num n => simp [pageWF] at hpage
    | arr l => simp [pageWF] at hpage

/-- C10: on a well-formed document, any term that received an aggregated
record ends up in the combined extract_terms output under its own key with
the aggregated TermRecord, not with the rule record of the same name: the
term-keyed entries are merged in after the rule-keyed entries and win every
key collision. -/
theorem term_entries_take_precedence (data : List (String × JVal))
    (acc : List (String × TermRec)) (t : String) (trec : TermRec)
    (h : docWF data = true) (hagg : aggregateTerms data = .ok acc)
    (ht : aGet acc t = some trec) :
    ∃ out, extract_terms data = .ok out ∧ aGet out t = some trec.toJVal := by
  have h2 := aggregateTerms_ok data h
  rw [hagg] at h2
  injection h2 with hacc
  have hnd : keysNodup acc := by
    rw [hacc]
    exact keysNodup_foldl_stepTrip _ [] (by simp [keysNodup])
  obtain ⟨flat, hflat⟩ := step5Pages_ok_exists data []
    (by simpa only [docWF, List.all_eq_true] using h)
  refine ⟨acc.foldl (fun fd kv => aInsert fd kv.1 kv.2.toJVal) flat, ?_, ?_⟩
  · simp [extract_terms, hagg, hflat]
  · have hmap : acc.foldl (fun fd kv => aInsert fd kv.1 kv.2.toJVal) flat =
        (acc.map (fun kv => (kv.1, kv.2.toJVal))).foldl
          (fun fd kv => aInsert fd kv.1 kv.2) flat := by
      rw [List.foldl_map]
    rw [hmap, aGet_foldl_aInsert]
    have hmem : (t, trec) ∈ acc := (aGet_eq_some_iff_mem acc t trec hnd).mp ht
    have hmem2 : (t, trec.toJVal) ∈ acc.map (fun kv => (kv.1, kv.2.toJVal)) :=
      List.mem_map.mpr ⟨(t, trec), hmem, rfl⟩
    have hnd2 : keysNodup (acc.map (fun kv => (kv.1, kv.2.toJVal))) := by
      unfold keysNodup
      rw [List.map_map]
      have he : (Prod.fst ∘ fun kv : String × TermRec => (kv.1, kv.2.toJVal)) =
          Prod.fst := funext fun kv => rfl
      rw [he]
      exact hnd
    rw [lookupLast_of_nodup _ t trec.toJVal hnd2 hmem2]
    rfl

/-- Witness for C10 at a concrete document where the term string V.2 is
identical to a rule-number key V.2: the combined output maps V.2 to the
aggregated TermRecord. -/
theorem term_entries_take_precedence_witness :
    ∃ out, extract_terms [("1", JVal.obj
      [("V.1", JVal.obj [("definition", JVal.str "rule one"),
         ("terms", JVal.obj [("V.2", JVal.str "V.1")])]),
       ("V.2", JVal.obj [("definition", JVal.str "rule two"),
         ("terms", JVal.obj [])])])] = .ok out ∧
      aGet out "V.2" = some (TermRec.toJVal
        ⟨[JVal.str "1"], [JVal.str "V.1"], JVal.str "rule one", "V.2", ""⟩) :=
  term_entries_take_precedence _
    [("V.2", ⟨[JVal.str "1"], [JVal.str "V.1"], JVal.str "rule one", "V.2", ""⟩)]
    "V.2" _ (by decide) (by decide) (by decide)
